import Mathlib

/-!
Verification of the queen-core transport layer against its specification.

The development shallowly embeds the two components the claims are about:

* the wire codec of `src/wire_protocol/message.rs` (`Message`, `OpCode`,
  `Message::len`, `Message::write`, `Message::read`);
* the event-loop multiplexer of `src/service/service.rs` (`Service`,
  `ServiceMessage`, `Command`, `next_token`, `channel_process`,
  `service_command`, `connect_process`, `remove_connent`, `dispatch`,
  `run`).

Byte streams are `List Nat` whose elements are intended to be `< 256`
(the Rust side enforces this by typing; theorems carry the corresponding
bounds as hypotheses where they matter).  Machine integers are `Nat`
with explicit `% 2 ^ 32` / `% 2 ^ 16` where the source performs a cast
or where release-mode wrapping arithmetic applies.
-/

/-- Little-endian byte encoding of a `u32` value, as produced by
`write_u32::<LittleEndian>` (each component is reduced mod 256, which is
what storing into bytes does). -/
def u32le (n : Nat) : List Nat :=
  [n % 256, n / 256 % 256, n / 65536 % 256, n / 16777216 % 256]

/-- Little-endian byte encoding of a `u16` value (`write_u16::<LittleEndian>`). -/
def u16le (n : Nat) : List Nat :=
  [n % 256, n / 256 % 256]

/-- Reading a little-endian `u32` from the head of a byte stream
(`read_u32::<LittleEndian>`); `none` models the propagated I/O error when
fewer than 4 bytes remain. -/
def readU32 : List Nat → Option (Nat × List Nat)
  | b0 :: b1 :: b2 :: b3 :: rest =>
      some (b0 + 256 * b1 + 65536 * b2 + 16777216 * b3, rest)
  | _ => none

/-- Reading a little-endian `u16` (`read_u16::<LittleEndian>`). -/
def readU16 : List Nat → Option (Nat × List Nat)
  | b0 :: b1 :: rest => some (b0 + 256 * b1, rest)
  | _ => none

/-- The `read_cstring` helper of `message.rs`: consume bytes until a NUL,
returning the collected bytes.  `none` models the propagated I/O error when
the stream ends before a NUL.  (The source additionally validates UTF-8 via
`String::from_utf8`; strings are modelled as their raw bytes, which is exact
for the byte sequences produced by `write_cstring`.) -/
def read_cstring : List Nat → Option (List Nat × List Nat)
  | [] => none
  | c :: rest =>
      if c = 0 then some ([], rest)
      else
        match read_cstring rest with
        | some (s, r) => some (c :: s, r)
        | none => none

/-- The `write_cstring` helper of `message.rs`: the bytes of the string
followed by a NUL terminator. -/
def write_cstring (s : List Nat) : List Nat := s ++ [0]

/-- Release-mode wrapping subtraction on `u32` (`a - b` where both operands
are reduced to 32 bits).  The source performs bare `-=` on a `u32`; in a
release build this wraps, and the explicit `panic!` guarding the body read
is where an inconsistent length actually aborts (a debug build aborts at
the subtraction itself; both aborts are modelled by `ReadResult.panic`
below). -/
def wsub (a b : Nat) : Nat :=
  (a % 4294967296 + (4294967296 - b % 4294967296)) % 4294967296

namespace OpCode

/-- Union of the bits of all named `OpCode` flags (`OpCode::all()` of the
`bitflags!` block): families 0x01/0x02/0x04/0x80 with their action bits. -/
def all : Nat := 0x873f

/-- The named flag constants of the `bitflags!` block, in source order. -/
def namedFlags : List Nat :=
  [0x0101, 0x0102, 0x0104, 0x0108,
   0x0201, 0x0202, 0x0204, 0x0208,
   0x0401, 0x0402, 0x0404, 0x0408, 0x0410, 0x0420,
   0x8001, 0x8002]

/-- `OpCode::UNKNOW`. -/
def UNKNOW : Nat := 0x8001

/-- `OpCode::from_bits` as generated by `bitflags!`: defined exactly when no
bit outside the union of all named flags is set, in which case the bits are
kept as they are. -/
def from_bits (bits : Nat) : Option Nat :=
  if bits &&& (0xffff ^^^ OpCode.all) = 0 then some bits else none

end OpCode

/-- The `Message` struct of `message.rs`.  `target` and `origin` are the
byte sequences of the two strings; `opcode` is the `u16` bit pattern held
by the `OpCode` value. -/
structure Message where
  message_id : Nat
  target : List Nat
  origin : List Nat
  opcode : Nat
  content_type : Nat
  body : List Nat
deriving DecidableEq

/-- `Message::len`: the total encoded size in bytes, summed exactly as in
the source (length prefix + id + NUL-terminated target and origin + opcode
+ content_type + body). -/
def Message.len (m : Message) : Nat :=
  4 + 4 + (m.target.length + 1) + (m.origin.length + 1) + (2 + 2) + m.body.length

/-- `Message::write`: the encoded frame.  The single genuine cast in the
source is `total_length as u32` on the length prefix, modelled by
`% 4294967296`; the other fields are `u32`/`u16` by type. -/
def Message.write (m : Message) : List Nat :=
  u32le (m.len % 4294967296) ++ u32le m.message_id ++
    write_cstring m.target ++ write_cstring m.origin ++
    u16le m.opcode ++ u16le m.content_type ++ m.body

/-- Outcome of `Message::read`: success with the decoded message and the
unconsumed remainder of the stream, a propagated I/O error (`Err` return),
or a process abort (`panic!` / arithmetic overflow). -/
inductive ReadResult where
  | ok (m : Message) (rest : List Nat)
  | ioErr
  | panic
deriving DecidableEq

/-- `Message::read` over an in-memory byte stream (the single `buffer.read`
call used for the body returns `min requested available` bytes, the
behavior of a cursor over bytes).  Length bookkeeping uses release-mode
wrapping `u32` subtraction `wsub`; the explicit `panic!` of the source (hit
when the body read returns fewer bytes than the remaining declared length)
yields `ReadResult.panic`. -/
def Message.read (input : List Nat) : ReadResult :=
  match readU32 input with
  | none => .ioErr
  | some (len0, r1) =>
    let tl1 := wsub len0 4
    match readU32 r1 with
    | none => .ioErr
    | some (mid, r2) =>
      let tl2 := wsub tl1 4
      match read_cstring r2 with
      | none => .ioErr
      | some (target, r3) =>
        let tl3 := wsub tl2 (target.length + 1)
        match read_cstring r3 with
        | none => .ioErr
        | some (origin, r4) =>
          let tl4 := wsub tl3 (origin.length + 1)
          match readU16 r4 with
          | none => .ioErr
          | some (opbits, r5) =>
            let tl5 := wsub tl4 2
            match readU16 r5 with
            | none => .ioErr
            | some (ct, r6) =>
              let tl6 := wsub tl5 2
              if 0 < tl6 then
                if min tl6 r6.length < tl6 then .panic
                else
                  .ok ⟨mid, target, origin,
                        (OpCode.from_bits opbits).getD OpCode.UNKNOW, ct,
                        r6.take tl6⟩ (r6.drop tl6)
              else
                .ok ⟨mid, target, origin,
                      (OpCode.from_bits opbits).getD OpCode.UNKNOW, ct, []⟩ r6

/-- Well-formedness of a `Message` value as enforced by the Rust types:
`u32` message id, `u16` content type, an `opcode` that is a valid `OpCode`
representation (only named-flag bits set), and byte-valued strings/body. -/
def Message.Wf (m : Message) : Prop :=
  m.message_id < 4294967296 ∧ m.content_type < 65536 ∧
    m.opcode < 65536 ∧ m.opcode &&& 0x78c0 = 0 ∧
    (∀ b ∈ m.target, b < 256) ∧ (∀ b ∈ m.origin, b < 256) ∧
    (∀ b ∈ m.body, b < 256)

example : u32le 16 = [16, 0, 0, 0] := by decide
example : wsub 4 4 = 0 := by decide
example : wsub 0 4 = 4294967292 := by decide
example : OpCode.from_bits 0 = some 0 := by decide
example : OpCode.from_bits 64 = none := by decide
example :
    Message.read [14, 0, 0, 0, 0, 0, 0, 0, 0, 0, 0, 0, 0, 0] =
      .ok ⟨0, [], [], 0, 0, []⟩ [] := by decide
example :
    Message.read (Message.write ⟨1, [104], [105], 257, 2, [9, 8]⟩) =
      .ok ⟨1, [104], [105], 257, 2, [9, 8]⟩ [] := by decide

theorem u32le_mod (n : Nat) : u32le (n % 4294967296) = u32le n := by
  simp only [u32le, List.cons.injEq, and_true]
  refine ⟨?_, ?_, ?_, ?_⟩ <;> omega

theorem readU32_u32le (n : Nat) (r : List Nat) (h : n < 4294967296) :
    readU32 (u32le n ++ r) = some (n, r) := by
  simp only [u32le, List.cons_append, List.nil_append, readU32,
    Option.some.injEq, Prod.mk.injEq]
  exact ⟨by omega, trivial⟩

theorem readU16_u16le (n : Nat) (r : List Nat) (h : n < 65536) :
    readU16 (u16le n ++ r) = some (n, r) := by
  simp only [u16le, List.cons_append, List.nil_append, readU16,
    Option.some.injEq, Prod.mk.injEq]
  exact ⟨by omega, trivial⟩

theorem read_cstring_append (s r : List Nat) (h : ∀ b ∈ s, b ≠ 0) :
    read_cstring (s ++ 0 :: r) = some (s, r) := by
  induction s with
  | nil => simp [read_cstring]
  | cons c cs ih =>
    have hc : ¬(c = 0) := h c (by simp)
    simp only [List.cons_append, read_cstring, if_neg hc, List.append_eq,
      ih (fun b hb => h b (by simp [hb]))]

theorem wsub_eq (a b : Nat) (hb : b ≤ a) (ha : a < 4294967296) :
    wsub a b = a - b := by
  unfold wsub
  omega

theorem Message.write_length (m : Message) :
    (Message.write m).length = m.len := by
  simp [Message.write, write_cstring, u32le, u16le, Message.len]
  omega

theorem Message.len_eq (m : Message) :
    m.len = 14 + m.target.length + m.origin.length + m.body.length := by
  unfold Message.len
  omega

/-- Decoding the frame written for `m`, followed by any extra bytes,
succeeds, recovers every field (the opcode through `OpCode::from_bits`),
and consumes exactly the frame.  This is the central codec lemma; it only
needs the total encoded size to fit in the 32-bit length prefix. -/
theorem Message.read_write (m : Message) (extra : List Nat)
    (hid : m.message_id < 4294967296)
    (hop : m.opcode < 65536) (hct : m.content_type < 65536)
    (htgt : ∀ b ∈ m.target, b ≠ 0) (horg : ∀ b ∈ m.origin, b ≠ 0)
    (hlen : m.len < 4294967296) :
    Message.read (Message.write m ++ extra) =
      .ok ⟨m.message_id, m.target, m.origin,
            (OpCode.from_bits m.opcode).getD OpCode.UNKNOW, m.content_type,
            m.body⟩ extra := by
  have hlen14 : m.len = 14 + m.target.length + m.origin.length + m.body.length :=
    m.len_eq
  have e1 : wsub m.len 4 = m.len - 4 := wsub_eq _ _ (by omega) hlen
  have e2 : wsub (m.len - 4) 4 = m.len - 8 := by
    rw [wsub_eq _ _ (by omega) (by omega)]; omega
  have e3 : wsub (m.len - 8) (m.target.length + 1) =
      m.len - 9 - m.target.length := by
    rw [wsub_eq _ _ (by omega) (by omega)]; omega
  have e4 : wsub (m.len - 9 - m.target.length) (m.origin.length + 1) =
      m.len - 10 - m.target.length - m.origin.length := by
    rw [wsub_eq _ _ (by omega) (by omega)]; omega
  have e5 : wsub (m.len - 10 - m.target.length - m.origin.length) 2 =
      m.len - 12 - m.target.length - m.origin.length := by
    rw [wsub_eq _ _ (by omega) (by omega)]; omega
  have e6 : wsub (m.len - 12 - m.target.length - m.origin.length) 2 =
      m.body.length := by
    rw [wsub_eq _ _ (by omega) (by omega)]; omega
  simp only [Message.write, write_cstring, List.append_assoc, u32le_mod,
    List.cons_append, List.nil_append]
  simp only [Message.read, readU32_u32le _ _ hlen, readU32_u32le _ _ hid,
    read_cstring_append _ _ htgt, read_cstring_append _ _ horg,
    readU16_u16le _ _ hop, readU16_u16le _ _ hct, e1, e2, e3, e4, e5, e6]
  rcases Nat.eq_zero_or_pos m.body.length with hB | hB
  · rw [List.length_eq_zero] at hB
    simp [hB]
  · have hmin : min m.body.length (m.body ++ extra).length = m.body.length := by
      simp [List.length_append]
    rw [if_pos hB, hmin]
    simp [List.take_left, List.drop_left]

example :
    Message.read (Message.write ⟨5, [104, 105], [106], 258, 7, [1, 2, 3]⟩ ++ [9, 9]) =
      .ok ⟨5, [104, 105], [106], 258, 7, [1, 2, 3]⟩ [9, 9] := by
  decide


/-- Reading the frame of a message with empty target/origin, opcode 257,
content type 0 and a body of 4294967298 (2 ^ 32 + 2) bytes: the length
prefix is truncated to 16 by the `as u32` cast, so only 2 body bytes are
decoded and the rest of the body is left in the stream. -/
theorem read_write_overflow (bod : List Nat) (hb : bod.length = 4294967298) :
    Message.read (Message.write ⟨0, [], [], 257, 0, bod⟩) =
      ReadResult.ok ⟨0, [], [], 257, 0, bod.take 2⟩ (bod.drop 2) := by
  have hL : (Message.mk 0 [] [] 257 0 bod).len = 4294967312 := by
    rw [Message.len_eq]
    simp [hb]
  have hw : Message.write ⟨0, [], [], 257, 0, bod⟩ =
      16 :: 0 :: 0 :: 0 :: 0 :: 0 :: 0 :: 0 :: 0 :: 0 :: 1 :: 1 :: 0 :: 0 :: bod := by
    rw [Message.write, hL]
    norm_num [u32le, u16le, write_cstring]
  have hfb : (OpCode.from_bits 257).getD OpCode.UNKNOW = 257 := by decide
  rw [hw]
  norm_num [Message.read, readU32, readU16, read_cstring, wsub, hb, hfb,
    Nat.min_def]

/-- A message whose body has 2 ^ 32 + 2 bytes: its total encoded size is
2 ^ 32 + 16, so the `as u32` cast truncates the length prefix to 16. -/
def c1Msg : Message := ⟨0, [], [], 257, 0, List.replicate 4294967298 7⟩

/-- C1: the claim fails as stated.  `c1Msg` has a NUL-free (empty) target
and origin and an arbitrary byte-sequence body, yet decoding its encoding
does not return it: the `total_length as u32` cast truncates the length
prefix of the 2 ^ 32 + 16-byte frame to 16, so `Message::read` stops after
2 body bytes and does not reproduce `c1Msg`. -/
theorem c1_counterexample :
    ((∀ b ∈ c1Msg.target, b ≠ 0) ∧ (∀ b ∈ c1Msg.origin, b ≠ 0)) ∧
      Message.read (Message.write c1Msg) ≠ ReadResult.ok c1Msg [] := by
  refine ⟨⟨fun b hb => absurd hb (List.not_mem_nil b),
           fun b hb => absurd hb (List.not_mem_nil b)⟩, ?_⟩
  rw [show Message.write c1Msg =
        Message.write ⟨0, [], [], 257, 0, List.replicate 4294967298 7⟩ from rfl,
      read_write_overflow _ (List.length_replicate _ _)]
  intro h
  rw [ReadResult.ok.injEq] at h
  have hl := congrArg List.length h.2
  rw [List.length_drop, List.length_replicate, List.length_nil] at hl
  exact absurd hl (by norm_num)

/-- C1 (amended): for every `Message` whose target and origin contain no
NUL byte, whose fields satisfy their machine-integer bounds, and whose
total encoded size fits the 32-bit length prefix, decoding the bytes
produced by encoding it returns a `Message` equal to it in every field
(message_id, target, origin, opcode, content_type, body). -/
theorem roundTrip (m : Message)
    (hid : m.message_id < 4294967296)
    (hop : m.opcode < 65536) (hopbits : m.opcode &&& 0x78c0 = 0)
    (hct : m.content_type < 65536)
    (htgt : ∀ b ∈ m.target, b ≠ 0) (horg : ∀ b ∈ m.origin, b ≠ 0)
    (hlen : m.len < 4294967296) :
    Message.read (Message.write m) = ReadResult.ok m [] := by
  have h := Message.read_write m [] hid hop hct htgt horg hlen
  rw [List.append_nil] at h
  rw [h, OpCode.from_bits,
    if_pos (by rw [show (0xffff ^^^ OpCode.all) = 0x78c0 from by decide]; exact hopbits)]
  rfl

theorem roundTrip_witness :
    Message.read (Message.write ⟨3, [116], [111], 1025, 9, [1, 2]⟩) =
      ReadResult.ok ⟨3, [116], [111], 1025, 9, [1, 2]⟩ [] :=
  roundTrip ⟨3, [116], [111], 1025, 9, [1, 2]⟩ (by norm_num) (by norm_num)
    (by decide) (by norm_num) (by decide) (by decide) (by decide)

/-- Byte sequence whose declared length prefix (4) is smaller than the
bytes actually present: after the prefix come a message id, target "a",
origin "b", opcode, content type, and one body byte. -/
def c2Input : List Nat :=
  [4, 0, 0, 0, 0, 0, 0, 0, 97, 0, 98, 0, 1, 1, 0, 0, 7]

/-- C2: the code aborts on a frame whose declared length is smaller than
the fields actually present, instead of returning a decode error.  On
`c2Input` the length bookkeeping underflows (4 - 4 - 4 wraps), and the
`panic!` guarding the body read fires because only 1 byte is available
against the wrapped remaining count (a debug build aborts even earlier, at
the underflowing subtraction itself). -/
theorem c2_underflow_aborts : Message.read c2Input = ReadResult.panic := by
  decide

/-- Prefix truncation for a frame of exactly 2 ^ 32 bytes: with a body of
4294967282 bytes (and empty target/origin) the total encoded size is
2 ^ 32, so the written 32-bit length prefix is 0 while the frame itself
has 2 ^ 32 bytes. -/
theorem write_prefix_zero (bod : List Nat) (hb : bod.length = 4294967282) :
    readU32 (Message.write ⟨0, [], [], 257, 0, bod⟩) =
        some (0, (Message.write ⟨0, [], [], 257, 0, bod⟩).drop 4) ∧
      (Message.write ⟨0, [], [], 257, 0, bod⟩).length = 4294967296 := by
  have hL : (Message.mk 0 [] [] 257 0 bod).len = 4294967296 := by
    rw [Message.len_eq]
    simp [hb]
  have hw : Message.write ⟨0, [], [], 257, 0, bod⟩ =
      0 :: 0 :: 0 :: 0 :: 0 :: 0 :: 0 :: 0 :: 0 :: 0 :: 1 :: 1 :: 0 :: 0 :: bod := by
    rw [Message.write, hL]
    norm_num [u32le, u16le, write_cstring]
  rw [hw]
  refine ⟨by norm_num [readU32, List.drop], ?_⟩
  simp [hb]

/-- A message whose total encoded size is exactly 2 ^ 32. -/
def c3Msg : Message := ⟨0, [], [], 257, 0, List.replicate 4294967282 9⟩

/-- C3: the claim fails as stated.  For `c3Msg` the 32-bit length prefix
written by `Message::write` decodes to 0, but the encoded frame is
2 ^ 32 bytes long: the `total_length as u32` cast truncates, so the length
prefix does not equal the total byte count of the frame. -/
theorem c3_counterexample :
    readU32 (Message.write c3Msg) = some (0, (Message.write c3Msg).drop 4) ∧
      (Message.write c3Msg).length = 4294967296 ∧
      ¬ readU32 (Message.write c3Msg) =
          some ((Message.write c3Msg).length, (Message.write c3Msg).drop 4) := by
  have h := write_prefix_zero (List.replicate 4294967282 9) (List.length_replicate _ _)
  rw [show c3Msg = Message.mk 0 [] [] 257 0 (List.replicate 4294967282 9) from rfl]
  refine ⟨h.1, h.2, ?_⟩
  rw [h.1, h.2]
  intro hcontra
  rw [Option.some.injEq, Prod.mk.injEq] at hcontra
  exact absurd hcontra.1 (by norm_num)

/-- C3 (amended): for every `Message` whose encoded size fits in 32 bits
(and whose fields satisfy their machine-integer bounds and NUL-freeness),
the length prefix written by `Message::write` equals the exact total byte
count of the full frame including the prefix's own 4 bytes, and
`Message::read` consumes exactly that many bytes, leaving any bytes
following the frame untouched. -/
theorem length_accounting (m : Message) (extra : List Nat)
    (hid : m.message_id < 4294967296)
    (hop : m.opcode < 65536) (hopbits : m.opcode &&& 0x78c0 = 0)
    (hct : m.content_type < 65536)
    (htgt : ∀ b ∈ m.target, b ≠ 0) (horg : ∀ b ∈ m.origin, b ≠ 0)
    (hlen : m.len < 4294967296) :
    (Message.write m).length = m.len ∧
      readU32 (Message.write m) = some (m.len, (Message.write m).drop 4) ∧
      Message.read (Message.write m ++ extra) = ReadResult.ok m extra := by
  refine ⟨Message.write_length m, ?_, ?_⟩
  · conv_lhs => rw [Message.write, u32le_mod]
    have hdrop : (Message.write m).drop 4 =
        u32le m.message_id ++ write_cstring m.target ++ write_cstring m.origin ++
          u16le m.opcode ++ u16le m.content_type ++ m.body := by
      conv_lhs => rw [Message.write, u32le_mod]
      simp [u32le, List.append_assoc, List.drop]
    rw [hdrop]
    have := readU32_u32le m.len
      (u32le m.message_id ++ (write_cstring m.target ++ (write_cstring m.origin ++
        (u16le m.opcode ++ (u16le m.content_type ++ m.body))))) hlen
    simpa [List.append_assoc] using this
  · have h := Message.read_write m extra hid hop hct htgt horg hlen
    rw [h, OpCode.from_bits,
      if_pos (by rw [show (0xffff ^^^ OpCode.all) = 0x78c0 from by decide]; exact hopbits)]
    rfl

theorem length_accounting_witness :
    (Message.write ⟨7, [120], [], 513, 0, [5]⟩).length =
        Message.len ⟨7, [120], [], 513, 0, [5]⟩ ∧
      readU32 (Message.write ⟨7, [120], [], 513, 0, [5]⟩) =
        some (Message.len ⟨7, [120], [], 513, 0, [5]⟩,
          (Message.write ⟨7, [120], [], 513, 0, [5]⟩).drop 4) ∧
      Message.read (Message.write ⟨7, [120], [], 513, 0, [5]⟩ ++ [8, 8, 8]) =
        ReadResult.ok ⟨7, [120], [], 513, 0, [5]⟩ [8, 8, 8] :=
  length_accounting ⟨7, [120], [], 513, 0, [5]⟩ [8, 8, 8] (by norm_num)
    (by norm_num) (by decide) (by norm_num) (by decide) (by decide) (by decide)

/-- C4: the claim fails as stated.  The opcode field value 0 encodes no
recognized named flag (it differs from, and contains no bit of, every
constant of the `bitflags!` block), yet decoding a frame carrying it
yields the empty bit pattern 0, not `OpCode::UNKNOW`: `from_bits` accepts
every subset of the defined bits, so only patterns with a bit outside the
union of all flags fall back to `UNKNOW`. -/
theorem c4_counterexample :
    (∀ f ∈ OpCode.namedFlags, (0 : Nat) ≠ f ∧ 0 &&& f ≠ f) ∧
      Message.read [14, 0, 0, 0, 0, 0, 0, 0, 0, 0, 0, 0, 0, 0] =
        ReadResult.ok ⟨0, [], [], 0, 0, []⟩ [] ∧
      (0 : Nat) ≠ OpCode.UNKNOW := by
  decide

/-- C4 (amended): for every 16-bit opcode field value, a frame carrying it
decodes successfully (never an error): if the value has a bit outside the
union `0x873f` of all named flags' bits, the decoded opcode is
`OpCode::UNKNOW`; otherwise the bit pattern is preserved as is, even when
it equals no single named flag. -/
theorem opcode_lenient (m : Message) (extra : List Nat)
    (hid : m.message_id < 4294967296)
    (hop : m.opcode < 65536) (hct : m.content_type < 65536)
    (htgt : ∀ b ∈ m.target, b ≠ 0) (horg : ∀ b ∈ m.origin, b ≠ 0)
    (hlen : m.len < 4294967296) :
    Message.read (Message.write m ++ extra) =
      ReadResult.ok
        ⟨m.message_id, m.target, m.origin,
          if m.opcode &&& 0x78c0 = 0 then m.opcode else OpCode.UNKNOW,
          m.content_type, m.body⟩ extra := by
  rw [Message.read_write m extra hid hop hct htgt horg hlen, OpCode.from_bits,
    show (0xffff ^^^ OpCode.all) = 0x78c0 from by decide]
  by_cases hbits : m.opcode &&& 0x78c0 = 0
  · rw [if_pos hbits, if_pos hbits]
    rfl
  · rw [if_neg hbits, if_neg hbits]
    rfl

theorem opcode_lenient_witness :
    Message.read (Message.write ⟨1, [122], [121], 64, 3, [6]⟩ ++ []) =
        ReadResult.ok ⟨1, [122], [121], OpCode.UNKNOW, 3, [6]⟩ [] ∧
      Message.read (Message.write ⟨1, [122], [121], 768, 3, [6]⟩ ++ []) =
        ReadResult.ok ⟨1, [122], [121], 768, 3, [6]⟩ [] := by
  constructor
  · have h := opcode_lenient ⟨1, [122], [121], 64, 3, [6]⟩ [] (by norm_num)
      (by norm_num) (by norm_num) (by decide) (by decide) (by decide)
    rw [h]
    decide
  · have h := opcode_lenient ⟨1, [122], [121], 768, 3, [6]⟩ [] (by norm_num)
      (by norm_num) (by norm_num) (by decide) (by decide) (by decide)
    rw [h]
    decide

/-- Modelled from the spec: the per-connection state of
`src/service/connection.rs`, a file that is not among the provided
sources.  Spec §3 "Connection state" and §4.2: a read buffer of bytes
received but not yet forming a complete frame, a queue of encoded
outbound frames not yet flushed, and the writable-interest flag. -/
structure Conn where
  readBuf : List Nat
  writeQueue : List (List Nat)
  writeInterest : Bool
deriving DecidableEq

/-- Modelled from the spec: a freshly constructed `Connection`
(`Connection::new` lives in the absent `connection.rs`): empty buffers,
no writable interest yet. -/
def Conn.fresh : Conn := ⟨[], [], false⟩

/-- Modelled from the spec: `Connection::recv_message` (the spec's
`enqueue`, §4.2): encode the message via the frame codec, append it to
the outbound queue, and ensure writable interest is registered. -/
def Conn.recv_message (c : Conn) (m : Message) : Conn :=
  { c with writeQueue := c.writeQueue ++ [Message.write m], writeInterest := true }

/-- The `Command` enum of `service.rs` (the `Shoutdown` spelling is the
source's). -/
inductive Command where
  | listen (id : Nat) (addr : String)
  | linkTo (id : Nat) (addr : String)
  | shoutdown
  | closeConn (id : Nat)
  | listenReply (id : Nat) (addr : String) (success : Bool) (msg : String)
  | linkToReply (id : Nat) (token : Nat) (addr : String) (success : Bool) (msg : String)
deriving DecidableEq

/-- The `ServiceMessage` enum of `service.rs`: an application message
tagged with a connection token, or an administrative command. -/
inductive ServiceMessage where
  | message (id : Nat) (m : Message)
  | command (c : Command)
deriving DecidableEq

/-- Lookup in the token → Connection registry (`HashMap::get`/`get_mut`). -/
def lookupConn : List (Nat × Conn) → Nat → Option Conn
  | [], _ => none
  | (k, c) :: r, t => if k = t then some c else lookupConn r t

/-- In-place mutation of the connection held under a token (the effect of
writing through `get_mut`); keys are untouched. -/
def updateConn : List (Nat × Conn) → Nat → Conn → List (Nat × Conn)
  | [], _, _ => []
  | (k, c) :: r, t, c' => if k = t then (k, c') :: r else (k, c) :: updateConn r t c'

/-- `HashMap::insert`: replace the value under an existing key, otherwise
add a new entry. -/
def insertConn (l : List (Nat × Conn)) (t : Nat) (c : Conn) : List (Nat × Conn) :=
  if (lookupConn l t).isSome then updateConn l t c else l ++ [(t, c)]

/-- `HashMap::remove`: drop the entry under the token, if any. -/
def removeEntry : List (Nat × Conn) → Nat → List (Nat × Conn)
  | [], _ => []
  | (k, c) :: r, t => if k = t then r else (k, c) :: removeEntry r t

/-- Add a token to the set of poller registrations (`poll.register`;
re-registration of an already-registered token is idempotent here). -/
def regInterest (l : List Nat) (t : Nat) : List Nat :=
  if t ∈ l then l else l ++ [t]

/-- The `Service` struct of `service.rs`.  The poller is represented by
the set `pollReg` of tokens currently holding registered interest; the
outbound channel by the list `tx_out` of everything sent on it (oldest
first).  `alloc` is a history variable, not a field of the source: it
records every token ever returned by `next_token`, so that statements
about "every allocated token" can be made. -/
structure Service where
  conns : List (Nat × Conn)
  token_counter : Nat
  socket : Option String
  run : Bool
  tx_out : List ServiceMessage
  pollReg : List Nat
  alloc : List Nat
deriving DecidableEq

/-- `Service::new` / `Service::with_channel`: empty registry, token
counter starting at 8, no listening socket, run flag set, and the control
channel (token 1) registered with the poller. -/
def Service.fresh : Service := ⟨[], 8, none, true, [], [1], []⟩

/-- `Service::next_token`: returns the current counter value and stores
the incremented value (`Cell::replace` returns the old value). -/
def Service.next_token (s : Service) : Nat × Service :=
  (s.token_counter,
   { s with token_counter := s.token_counter + 1,
            alloc := s.alloc ++ [s.token_counter] })

/-- Send on the outbound channel (`tx_out.send`; the source discards the
send result, so the model simply records the message). -/
def Service.emit (s : Service) (msg : ServiceMessage) : Service :=
  { s with tx_out := s.tx_out ++ [msg] }

/-- `Service::remove_connent`: remove the token's connection from the
registry and, if one was present, deregister its poller interest before
it is dropped. -/
def Service.remove_connent (s : Service) (token : Nat) : Service :=
  if (lookupConn s.conns token).isSome then
    { s with conns := removeEntry s.conns token,
             pollReg := s.pollReg.filter (fun x => ¬ x = token) }
  else s

/-- The empty reply message (`String::default()`) used by successful
`ListenReply`/`LinkToReply` commands. -/
def emptyStr : String := ""

/-- Outcome of the operating system for a bind (`TcpListener::bind`) or
outbound connect (`TcpStream::connect`): a socket, or an error whose
description becomes the reply's message string. -/
inductive NetResult where
  | sock (name : String)
  | fail (emsg : String)

/-- `Service::service_command`.  `net` is the operating-system outcome
consumed by the `Listen`/`LinkTo` arms.  `none` models the
`unimplemented!()` panic on an inbound reply command.  Poller
registration itself is modelled as infallible (its failure is in the
source's fatal-to-the-process category, propagated out of the loop). -/
def Service.service_command (s : Service) (net : NetResult) :
    Command → Option Service
  | .listen id addr =>
    match net with
    | .fail emsg =>
        some (s.emit (.command (.listenReply id addr false emsg)))
    | .sock name =>
        some ({ s with socket := some name, pollReg := regInterest s.pollReg 0
              }.emit (.command (.listenReply id addr true emptyStr)))
  | .linkTo id addr =>
    match net with
    | .fail emsg =>
        some (s.emit (.command (.linkToReply id 0 addr false emsg)))
    | .sock _ =>
        let p := s.next_token
        some ({ p.2 with
                  conns := insertConn p.2.conns p.1 Conn.fresh,
                  pollReg := regInterest p.2.pollReg p.1
              }.emit (.command (.linkToReply id p.1 addr true emptyStr)))
  | .shoutdown => some { s with run := false }
  | .closeConn id => some (s.remove_connent id)
  | .listenReply _ _ _ _ => none
  | .linkToReply _ _ _ _ _ => none

/-- One item drained from the inbound channel, with the operating-system
outcome a contained `Listen`/`LinkTo` command would consume resolved in
advance (the oracle for the non-deterministic environment). -/
inductive ChanItem where
  | msg (id : Nat) (m : Message)
  | cmd (net : NetResult) (c : Command)

/-- The body of the drain loop of `Service::channel_process` for a single
received item: an application message is forwarded to the addressed
connection's `recv_message` (silently skipped when the token is not
live); a command is executed by `service_command`. -/
def Service.channel_item (s : Service) : ChanItem → Option Service
  | .msg id m =>
    match lookupConn s.conns id with
    | some c => some { s with conns := updateConn s.conns id (c.recv_message m) }
    | none => some s
  | .cmd net c => s.service_command net c

/-- `Service::channel_process`: drain the given queue of inbound items in
order (the loop until `try_recv` reports `Empty`); the re-registration of
the control channel's interest keeps token 1 registered and is a no-op in
the model. -/
def Service.channel_process : Service → List ChanItem → Option Service
  | s, [] => some s
  | s, it :: rest =>
    match s.channel_item it with
    | some s' => s'.channel_process rest
    | none => none

/-- Readiness flags of one delivered poller event. -/
structure Readiness where
  readable : Bool
  writable : Bool
  hup : Bool
  err : Bool
deriving DecidableEq

/-- Modelled from the spec: the externally visible outcome of one
`Connection::reader` call (`connection.rs` is absent from the sources) —
the updated connection state, the complete frames extracted and pushed to
the outbound channel during the call, and whether the call returned an
error (end of stream or an I/O error other than would-block). -/
structure ReaderOutcome where
  conn : Conn
  frames : List Message
  failed : Bool

/-- Modelled from the spec: the outcome of one `Connection::writer` call —
the updated connection state and whether the call returned an error. -/
structure WriterOutcome where
  conn : Conn
  failed : Bool

/-- `Service::connect_process`, faithful to the source's control flow: on
hangup or error, remove and notify; otherwise run the reader if readable
and the writer if writable, each on the currently registered connection,
with the `close` flag assigned (not accumulated) by each call; finally
remove and notify if the flag ended up set.  `readerRes`/`writerRes` are
the I/O oracles for the two calls. -/
def Service.connect_process (readerRes : Conn → ReaderOutcome)
    (writerRes : Conn → WriterOutcome) (s : Service) (event : Readiness)
    (token : Nat) : Service :=
  if event.hup || event.err then
    (s.remove_connent token).emit (.command (.closeConn token))
  else
    let p1 : Service × Bool :=
      if event.readable then
        match lookupConn s.conns token with
        | some c =>
          let r := readerRes c
          ({ s with conns := updateConn s.conns token r.conn,
                    tx_out := s.tx_out ++
                      r.frames.map (fun m => ServiceMessage.message token m) },
           r.failed)
        | none => (s, false)
      else (s, false)
    let p2 : Service × Bool :=
      if event.writable then
        match lookupConn p1.1.conns token with
        | some c =>
          let w := writerRes c
          ({ p1.1 with conns := updateConn p1.1.conns token w.conn }, w.failed)
        | none => p1
      else p1
    if p2.2 then (p2.1.remove_connent token).emit (.command (.closeConn token))
    else p2.1

/-- One accepted socket of the accept loop: disable Nagle (no observable
state), allocate the next token, construct and register a `Connection`,
insert it into the registry. -/
def Service.accept_conn (s : Service) : Service :=
  let p := s.next_token
  { p.2 with conns := insertConn p.2.conns p.1 Conn.fresh,
             pollReg := regInterest p.2.pollReg p.1 }

/-- The accept loop of `Service::dispatch` for the listening-socket token:
accept `k` pending sockets, then hit would-block and re-arm (the re-arm
keeps token 0 registered; a no-op in the model). -/
def Service.accept_loop : Service → Nat → Service
  | s, 0 => s
  | s, k + 1 => (s.accept_conn).accept_loop k

/-- One delivered poller event with its environment oracles resolved: the
listening socket became readable with `k` pending sockets, the control
channel became readable with the given drained items, or a connection
token's event with its readiness flags and reader/writer oracles. -/
inductive EventItem where
  | socketEv (k : Nat)
  | channelEv (items : List ChanItem)
  | connEv (token : Nat) (event : Readiness)
      (readerRes : Conn → ReaderOutcome) (writerRes : Conn → WriterOutcome)

/-- `Service::dispatch`: route one event by token identity.  The
listening-socket arm does nothing when no listening socket exists. -/
def Service.dispatch (s : Service) : EventItem → Option Service
  | .socketEv k =>
    match s.socket with
    | some _ => some (s.accept_loop k)
    | none => some s
  | .channelEv items => s.channel_process items
  | .connEv token event readerRes writerRes =>
    some (s.connect_process readerRes writerRes event token)

/-- `Service::run_once`: dispatch every event of one poll batch in
order. -/
def Service.run_once : Service → List EventItem → Option Service
  | s, [] => some s
  | s, ev :: rest =>
    match s.dispatch ev with
    | some s' => s'.run_once rest
    | none => none

/-- `Service::run`: `while self.run { self.run_once()?; }` over the given
sequence of poll batches; once the run flag is false the loop exits and
later batches are never polled. -/
def Service.runBatches : Service → List (List EventItem) → Option Service
  | s, [] => some s
  | s, b :: bs =>
    if s.run then
      match s.run_once b with
      | some s' => s'.runBatches bs
      | none => none
    else some s

theorem lookupConn_eq_none (l : List (Nat × Conn)) (t : Nat)
    (h : t ∉ l.map Prod.fst) : lookupConn l t = none := by
  induction l with
  | nil => rfl
  | cons p r ih =>
    obtain ⟨k, v⟩ := p
    have hk : ¬ k = t := by
      intro hkt
      exact h (by simp [hkt])
    simp only [lookupConn, if_neg hk]
    exact ih (fun hmem => h (by simp [hmem]))

theorem lookupConn_isSome_iff (l : List (Nat × Conn)) (t : Nat) :
    (lookupConn l t).isSome = true ↔ t ∈ l.map Prod.fst := by
  induction l with
  | nil => simp [lookupConn]
  | cons p r ih =>
    obtain ⟨k, v⟩ := p
    by_cases hk : k = t
    · simp [lookupConn, if_pos hk, hk]
    · simp only [lookupConn, if_neg hk, List.map_cons, List.mem_cons, ih]
      constructor
      · exact fun h => Or.inr h
      · rintro (h | h)
        · exact absurd h.symm hk
        · exact h

theorem updateConn_keys (l : List (Nat × Conn)) (t : Nat) (c' : Conn) :
    (updateConn l t c').map Prod.fst = l.map Prod.fst := by
  induction l with
  | nil => rfl
  | cons p r ih =>
    obtain ⟨k, v⟩ := p
    by_cases hk : k = t
    · simp [updateConn, if_pos hk]
    · simp [updateConn, if_neg hk, ih]

theorem lookupConn_update_self (l : List (Nat × Conn)) (t : Nat) (c c' : Conn)
    (h : lookupConn l t = some c) :
    lookupConn (updateConn l t c') t = some c' := by
  induction l with
  | nil => exact absurd h (by simp [lookupConn])
  | cons p r ih =>
    obtain ⟨k, v⟩ := p
    by_cases hk : k = t
    · simp [updateConn, if_pos hk, lookupConn]
    · simp only [lookupConn, if_neg hk] at h
      simp only [updateConn, if_neg hk, lookupConn, if_neg hk]
      exact ih h

theorem removeEntry_keys_sublist (l : List (Nat × Conn)) (t : Nat) :
    List.Sublist ((removeEntry l t).map Prod.fst) (l.map Prod.fst) := by
  induction l with
  | nil => simp [removeEntry]
  | cons p r ih =>
    obtain ⟨k, v⟩ := p
    by_cases hk : k = t
    · simp only [removeEntry, if_pos hk, List.map_cons]
      exact (List.sublist_cons_self _ _)
    · simp only [removeEntry, if_neg hk, List.map_cons]
      exact ih.cons₂ k

theorem lookupConn_removeEntry_self (l : List (Nat × Conn)) (t : Nat)
    (hnodup : (l.map Prod.fst).Nodup) :
    lookupConn (removeEntry l t) t = none := by
  induction l with
  | nil => rfl
  | cons p r ih =>
    obtain ⟨k, v⟩ := p
    rw [List.map_cons, List.nodup_cons] at hnodup
    by_cases hk : k = t
    · rw [removeEntry, if_pos hk]
      exact lookupConn_eq_none r t (hk ▸ hnodup.1)
    · rw [removeEntry, if_neg hk, lookupConn, if_neg hk]
      exact ih hnodup.2

/-- Number of `CloseConn` notifications for a token among the messages
sent on the outbound channel. -/
def countClose (l : List ServiceMessage) (token : Nat) : Nat :=
  (l.filter (fun x => x = ServiceMessage.command (Command.closeConn token))).length

theorem countClose_append (l l' : List ServiceMessage) (token : Nat) :
    countClose (l ++ l') token = countClose l token + countClose l' token := by
  simp [countClose, List.filter_append]

theorem countClose_map_message (frames : List Message) (t token : Nat) :
    countClose (frames.map (fun m => ServiceMessage.message t m)) token = 0 := by
  induction frames with
  | nil => rfl
  | cons f r ih => simp [countClose, List.filter] at ih ⊢

/-- C10: a `ServiceMessage::Message(id, m)` drained from the inbound
channel when no live connection holds token `id` is a silent no-op:
`channel_process` returns successfully and the whole service state —
registry, every connection's state, listening socket, run flag — is
unchanged, with nothing emitted on the outbound channel. -/
theorem message_to_dead_token_noop (s : Service) (id : Nat) (m : Message)
    (h : lookupConn s.conns id = none) :
    s.channel_item (.msg id m) = some s ∧
      s.channel_process [.msg id m] = some s := by
  have h1 : s.channel_item (.msg id m) = some s := by
    simp [Service.channel_item, h]
  exact ⟨h1, by simp [Service.channel_process, h1]⟩

theorem message_to_dead_token_noop_witness :
    Service.fresh.channel_item (.msg 5 ⟨0, [], [], 257, 0, []⟩) =
        some Service.fresh ∧
      Service.fresh.channel_process [.msg 5 ⟨0, [], [], 257, 0, []⟩] =
        some Service.fresh :=
  message_to_dead_token_noop Service.fresh 5 ⟨0, [], [], 257, 0, []⟩ rfl

/-- C8: a `Listen` command whose bind fails produces a `ListenReply` with
`success = false` carrying the bind error's (non-empty) description, the
handler returns successfully, the run flag stays true, and the registry
and the existing listening socket are untouched. -/
theorem listen_failure_recoverable (s : Service) (id : Nat) (addr emsg : String)
    (hmsg : emsg ≠ emptyStr) (hrun : s.run = true) :
    s.service_command (.fail emsg) (.listen id addr) =
        some (s.emit (.command (.listenReply id addr false emsg))) ∧
      (s.emit (.command (.listenReply id addr false emsg))).run = true ∧
      (s.emit (.command (.listenReply id addr false emsg))).conns = s.conns ∧
      (s.emit (.command (.listenReply id addr false emsg))).socket = s.socket ∧
      (s.emit (.command (.listenReply id addr false emsg))).tx_out =
        s.tx_out ++ [ServiceMessage.command (.listenReply id addr false emsg)] ∧
      emsg ≠ emptyStr :=
  ⟨rfl, by simp [Service.emit, hrun], rfl, rfl, rfl, hmsg⟩

/-- A bind-failure description, as produced by `err.description()`. -/
def errInUse : String := "address in use"

/-- A bind address for witnesses. -/
def addrDemo : String := "127.0.0.1:8888"

theorem listen_failure_recoverable_witness :
    Service.fresh.service_command (.fail errInUse) (.listen 1 addrDemo) =
        some (Service.fresh.emit
            (.command (.listenReply 1 addrDemo false errInUse))) ∧
      (Service.fresh.emit (.command (.listenReply 1 addrDemo false errInUse))).run
          = true ∧
      (Service.fresh.emit
            (.command (.listenReply 1 addrDemo false errInUse))).conns =
        Service.fresh.conns ∧
      (Service.fresh.emit
            (.command (.listenReply 1 addrDemo false errInUse))).socket =
        Service.fresh.socket ∧
      (Service.fresh.emit
            (.command (.listenReply 1 addrDemo false errInUse))).tx_out =
        Service.fresh.tx_out ++
          [ServiceMessage.command (.listenReply 1 addrDemo false errInUse)] ∧
      errInUse ≠ emptyStr :=
  listen_failure_recoverable Service.fresh 1 addrDemo errInUse (by decide) rfl

/-- The value of the source's `close` flag at the end of
`connect_process`'s readable/writable phases for a live token: each phase
assigns rather than accumulates, so when the event is writable the writer
outcome (computed on the reader-updated connection) overwrites whatever
the reader produced; hangup/error short-circuit to removal. -/
def closeFlagOf (readerRes : Conn → ReaderOutcome)
    (writerRes : Conn → WriterOutcome) (event : Readiness) (c : Conn) : Bool :=
  if event.hup || event.err then true
  else if event.writable then
    (writerRes (if event.readable then (readerRes c).conn else c)).failed
  else if event.readable then (readerRes c).failed
  else false

theorem remove_emit_close (s : Service) (token : Nat)
    (hnodup : (s.conns.map Prod.fst).Nodup)
    (hsome : (lookupConn s.conns token).isSome = true) :
    lookupConn ((s.remove_connent token).emit
        (.command (.closeConn token))).conns token = none ∧
      token ∉ ((s.remove_connent token).emit
        (.command (.closeConn token))).pollReg ∧
      countClose ((s.remove_connent token).emit
          (.command (.closeConn token))).tx_out token =
        countClose s.tx_out token + 1 := by
  unfold Service.remove_connent Service.emit
  rw [if_pos hsome]
  refine ⟨lookupConn_removeEntry_self _ _ hnodup, ?_, ?_⟩
  · intro hmem
    simp only [List.mem_filter, decide_not] at hmem
    simp at hmem
  · rw [countClose_append]
    simp [countClose, List.filter]

/-- C5 (amended): for a readiness event dispatched to a live connection
token, removal and close notification are governed by the final `close`
assignment: on hangup or error, or when the last I/O call made for the
event fails (the writer call when the event is writable, otherwise the
reader call), the connection is removed from the registry with its poller
interest deregistered and exactly one `CloseConn` carrying the token is
emitted; when that final call succeeds the connection stays registered and
no notification is emitted — in particular a reader failure is discarded
when the event is also writable and the writer call succeeds. -/
theorem connect_process_close (readerRes : Conn → ReaderOutcome)
    (writerRes : Conn → WriterOutcome) (s : Service) (event : Readiness)
    (token : Nat) (c : Conn)
    (hnodup : (s.conns.map Prod.fst).Nodup)
    (hc : lookupConn s.conns token = some c) :
    (closeFlagOf readerRes writerRes event c = true →
        lookupConn
            (s.connect_process readerRes writerRes event token).conns token
            = none ∧
          token ∉ (s.connect_process readerRes writerRes event token).pollReg ∧
          countClose
              (s.connect_process readerRes writerRes event token).tx_out token =
            countClose s.tx_out token + 1) ∧
      (closeFlagOf readerRes writerRes event c = false →
        (lookupConn
            (s.connect_process readerRes writerRes event token).conns
            token).isSome = true ∧
          countClose
              (s.connect_process readerRes writerRes event token).tx_out token =
            countClose s.tx_out token) := by
  have hsome : (lookupConn s.conns token).isSome = true := by rw [hc]; rfl
  rcases event with ⟨rd, wr, hup, er⟩
  by_cases hhe : (hup || er) = true
  · have hres : s.connect_process readerRes writerRes ⟨rd, wr, hup, er⟩ token =
        (s.remove_connent token).emit (.command (.closeConn token)) := by
      unfold Service.connect_process
      simp [hhe]
    have hflag : closeFlagOf readerRes writerRes ⟨rd, wr, hup, er⟩ c = true := by
      unfold closeFlagOf
      simp [hhe]
    rw [hres, hflag]
    exact ⟨fun _ => remove_emit_close s token hnodup hsome,
           fun hfalse => absurd hfalse (by simp)⟩
  · have hhe' : (hup || er) = false := by
      cases hb : (hup || er) with
      | true => exact absurd hb hhe
      | false => rfl
    cases hrd : rd with
    | false => cases hwr : wr with
      | false =>
        have hres : s.connect_process readerRes writerRes
            ⟨false, false, hup, er⟩ token = s := by
          unfold Service.connect_process
          simp [hhe']
        have hflag : closeFlagOf readerRes writerRes
            ⟨false, false, hup, er⟩ c = false := by
          unfold closeFlagOf
          simp [hhe']
        rw [hres, hflag]
        exact ⟨fun htrue => absurd htrue (by simp), fun _ => ⟨hsome, rfl⟩⟩
      | true =>
        have hres : s.connect_process readerRes writerRes
            ⟨false, true, hup, er⟩ token =
            (if (writerRes c).failed then
              (({ s with conns := updateConn s.conns token (writerRes c).conn
                }).remove_connent token).emit (.command (.closeConn token))
            else { s with conns := updateConn s.conns token (writerRes c).conn }) := by
          unfold Service.connect_process
          simp [hhe', hc]
        have hflag : closeFlagOf readerRes writerRes
            ⟨false, true, hup, er⟩ c = (writerRes c).failed := by
          unfold closeFlagOf
          simp [hhe']
        have hnodup2 : (({ s with
            conns := updateConn s.conns token (writerRes c).conn
          } : Service).conns.map Prod.fst).Nodup := by
          simpa [updateConn_keys] using hnodup
        have hsome2 : (lookupConn ({ s with
            conns := updateConn s.conns token (writerRes c).conn
          } : Service).conns token).isSome = true := by
          simp [lookupConn_update_self _ _ _ _ hc]
        rw [hres, hflag]
        cases hfail : (writerRes c).failed with
        | true =>
          refine ⟨fun _ => ?_, fun hfalse => absurd hfalse (by simp)⟩
          rw [if_pos rfl]
          exact remove_emit_close _ token hnodup2 hsome2
        | false =>
          refine ⟨fun htrue => absurd htrue (by simp), fun _ => ?_⟩
          rw [if_neg Bool.false_ne_true]
          exact ⟨hsome2, rfl⟩
    | true =>
      cases hwr : wr with
      | false =>
        have hres : s.connect_process readerRes writerRes
            ⟨true, false, hup, er⟩ token =
            (if (readerRes c).failed then
              (({ s with
                  conns := updateConn s.conns token (readerRes c).conn,
                  tx_out := s.tx_out ++ (readerRes c).frames.map
                    (fun m => ServiceMessage.message token m)
                }).remove_connent token).emit (.command (.closeConn token))
            else { s with
                conns := updateConn s.conns token (readerRes c).conn,
                tx_out := s.tx_out ++ (readerRes c).frames.map
                  (fun m => ServiceMessage.message token m) }) := by
          unfold Service.connect_process
          simp [hhe', hc]
        have hflag : closeFlagOf readerRes writerRes
            ⟨true, false, hup, er⟩ c = (readerRes c).failed := by
          unfold closeFlagOf
          simp [hhe']
        have hnodup2 : (({ s with
            conns := updateConn s.conns token (readerRes c).conn,
            tx_out := s.tx_out ++ (readerRes c).frames.map
              (fun m => ServiceMessage.message token m)
          } : Service).conns.map Prod.fst).Nodup := by
          simpa [updateConn_keys] using hnodup
        have hsome2 : (lookupConn ({ s with
            conns := updateConn s.conns token (readerRes c).conn,
            tx_out := s.tx_out ++ (readerRes c).frames.map
              (fun m => ServiceMessage.message token m)
          } : Service).conns token).isSome = true := by
          simp [lookupConn_update_self _ _ _ _ hc]
        have hcount2 : countClose (s.tx_out ++ (readerRes c).frames.map
            (fun m => ServiceMessage.message token m)) token =
            countClose s.tx_out token := by
          rw [countClose_append, countClose_map_message]
          omega
        rw [hres, hflag]
        cases hfail : (readerRes c).failed with
        | true =>
          refine ⟨fun _ => ?_, fun hfalse => absurd hfalse (by simp)⟩
          rw [if_pos rfl]
          have h3 := remove_emit_close _ token hnodup2 hsome2
          refine ⟨h3.1, h3.2.1, ?_⟩
          rw [h3.2.2]
          simp [hcount2]
        | false =>
          refine ⟨fun htrue => absurd htrue (by simp), fun _ => ?_⟩
          rw [if_neg Bool.false_ne_true]
          exact ⟨hsome2, hcount2⟩
      | true =>
        have hlook1 : lookupConn (updateConn s.conns token (readerRes c).conn)
            token = some (readerRes c).conn := lookupConn_update_self _ _ _ _ hc
        have hres : s.connect_process readerRes writerRes
            ⟨true, true, hup, er⟩ token =
            (if (writerRes (readerRes c).conn).failed then
              (({ s with
                  conns := updateConn (updateConn s.conns token (readerRes c).conn)
                    token (writerRes (readerRes c).conn).conn,
                  tx_out := s.tx_out ++ (readerRes c).frames.map
                    (fun m => ServiceMessage.message token m)
                }).remove_connent token).emit (.command (.closeConn token))
            else { s with
                conns := updateConn (updateConn s.conns token (readerRes c).conn)
                  token (writerRes (readerRes c).conn).conn,
                tx_out := s.tx_out ++ (readerRes c).frames.map
                  (fun m => ServiceMessage.message token m) }) := by
          unfold Service.connect_process
          simp [hhe', hc, hlook1]
        have hflag : closeFlagOf readerRes writerRes
            ⟨true, true, hup, er⟩ c = (writerRes (readerRes c).conn).failed := by
          unfold closeFlagOf
          simp [hhe']
        have hnodup2 : (({ s with
            conns := updateConn (updateConn s.conns token (readerRes c).conn)
              token (writerRes (readerRes c).conn).conn,
            tx_out := s.tx_out ++ (readerRes c).frames.map
              (fun m => ServiceMessage.message token m)
          } : Service).conns.map Prod.fst).Nodup := by
          simpa [updateConn_keys] using hnodup
        have hsome2 : (lookupConn ({ s with
            conns := updateConn (updateConn s.conns token (readerRes c).conn)
              token (writerRes (readerRes c).conn).conn,
            tx_out := s.tx_out ++ (readerRes c).frames.map
              (fun m => ServiceMessage.message token m)
          } : Service).conns token).isSome = true := by
          simp [lookupConn_update_self _ _ _ _ hlook1]
        have hcount2 : countClose (s.tx_out ++ (readerRes c).frames.map
            (fun m => ServiceMessage.message token m)) token =
            countClose s.tx_out token := by
          rw [countClose_append, countClose_map_message]
          omega
        rw [hres, hflag]
        cases hfail : (writerRes (readerRes c).conn).failed with
        | true =>
          refine ⟨fun _ => ?_, fun hfalse => absurd hfalse (by simp)⟩
          rw [if_pos rfl]
          have h3 := remove_emit_close _ token hnodup2 hsome2
          refine ⟨h3.1, h3.2.1, ?_⟩
          rw [h3.2.2]
          simp [hcount2]
        | false =>
          refine ⟨fun htrue => absurd htrue (by simp), fun _ => ?_⟩
          rw [if_neg Bool.false_ne_true]
          exact ⟨hsome2, hcount2⟩

theorem connect_process_close_witness :
    (closeFlagOf (fun c => ⟨c, [], true⟩) (fun c => ⟨c, false⟩)
          ⟨true, false, false, false⟩ Conn.fresh = true →
        lookupConn ((⟨[(8, Conn.fresh)], 9, none, true, [], [1, 8], [8]⟩ :
              Service).connect_process (fun c => ⟨c, [], true⟩)
              (fun c => ⟨c, false⟩) ⟨true, false, false, false⟩ 8).conns 8
            = none ∧
          8 ∉ ((⟨[(8, Conn.fresh)], 9, none, true, [], [1, 8], [8]⟩ :
              Service).connect_process (fun c => ⟨c, [], true⟩)
              (fun c => ⟨c, false⟩) ⟨true, false, false, false⟩ 8).pollReg ∧
          countClose ((⟨[(8, Conn.fresh)], 9, none, true, [], [1, 8], [8]⟩ :
                Service).connect_process (fun c => ⟨c, [], true⟩)
                (fun c => ⟨c, false⟩) ⟨true, false, false, false⟩ 8).tx_out 8 =
            countClose ([] : List ServiceMessage) 8 + 1) ∧
      (closeFlagOf (fun c => ⟨c, [], true⟩) (fun c => ⟨c, false⟩)
          ⟨true, false, false, false⟩ Conn.fresh = false →
        (lookupConn ((⟨[(8, Conn.fresh)], 9, none, true, [], [1, 8], [8]⟩ :
              Service).connect_process (fun c => ⟨c, [], true⟩)
              (fun c => ⟨c, false⟩) ⟨true, false, false, false⟩ 8).conns
            8).isSome = true ∧
          countClose ((⟨[(8, Conn.fresh)], 9, none, true, [], [1, 8], [8]⟩ :
                Service).connect_process (fun c => ⟨c, [], true⟩)
                (fun c => ⟨c, false⟩) ⟨true, false, false, false⟩ 8).tx_out 8 =
            countClose ([] : List ServiceMessage) 8) :=
  connect_process_close (fun c => ⟨c, [], true⟩) (fun c => ⟨c, false⟩)
    ⟨[(8, Conn.fresh)], 9, none, true, [], [1, 8], [8]⟩
    ⟨true, false, false, false⟩ 8 Conn.fresh (by simp) rfl

/-- C5: the claim fails as stated.  A readable-and-writable event on a
live token whose reader call fails but whose writer call succeeds leaves
the connection in the registry and emits no `CloseConn`: the source
overwrites the `close` flag with the writer's result instead of
accumulating the reader's failure. -/
theorem c5_counterexample :
    (Service.connect_process (fun c => ⟨c, [], true⟩) (fun c => ⟨c, false⟩)
          ⟨[(8, Conn.fresh)], 9, none, true, [], [1, 8], [8]⟩
          ⟨true, true, false, false⟩ 8).conns = [(8, Conn.fresh)] ∧
      (Service.connect_process (fun c => ⟨c, [], true⟩) (fun c => ⟨c, false⟩)
          ⟨[(8, Conn.fresh)], 9, none, true, [], [1, 8], [8]⟩
          ⟨true, true, false, false⟩ 8).tx_out = [] ∧
      (fun c => (⟨c, [], true⟩ : ReaderOutcome)) Conn.fresh = ⟨Conn.fresh, [], true⟩ :=
  ⟨rfl, rfl, rfl⟩

theorem remove_connent_run (s : Service) (t : Nat) :
    (s.remove_connent t).run = s.run := by
  unfold Service.remove_connent
  split <;> rfl

theorem service_command_run_false (s : Service) (net : NetResult)
    (cmd : Command) (s' : Service) (hr : s.run = false)
    (h : s.service_command net cmd = some s') : s'.run = false := by
  cases cmd with
  | listen id addr =>
    cases net with
    | sock name =>
      simp only [Service.service_command, Option.some.injEq] at h
      rw [← h]
      simp [Service.emit, hr]
    | fail emsg =>
      simp only [Service.service_command, Option.some.injEq] at h
      rw [← h]
      simp [Service.emit, hr]
  | linkTo id addr =>
    cases net with
    | sock name =>
      simp only [Service.service_command, Service.next_token,
        Option.some.injEq] at h
      rw [← h]
      simp [Service.emit, hr]
    | fail emsg =>
      simp only [Service.service_command, Option.some.injEq] at h
      rw [← h]
      simp [Service.emit, hr]
  | shoutdown =>
    simp only [Service.service_command, Option.some.injEq] at h
    rw [← h]
  | closeConn id =>
    simp only [Service.service_command, Option.some.injEq] at h
    rw [← h, remove_connent_run]
    exact hr
  | listenReply id addr success msg => exact absurd h (by simp [Service.service_command])
  | linkToReply id token addr success msg => exact absurd h (by simp [Service.service_command])

theorem channel_item_run_false (s : Service) (it : ChanItem) (s' : Service)
    (hr : s.run = false) (h : s.channel_item it = some s') : s'.run = false := by
  cases it with
  | msg id m =>
    simp only [Service.channel_item] at h
    cases hl : lookupConn s.conns id with
    | some c =>
      rw [hl] at h
      simp only [Option.some.injEq] at h
      rw [← h]
      exact hr
    | none =>
      rw [hl] at h
      simp only [Option.some.injEq] at h
      rw [← h]
      exact hr
  | cmd net c => exact service_command_run_false s net c s' hr h

theorem channel_process_run_false (items : List ChanItem) (s s' : Service)
    (hr : s.run = false) (h : s.channel_process items = some s') :
    s'.run = false := by
  induction items generalizing s with
  | nil =>
    unfold Service.channel_process at h
    simp only [Option.some.injEq] at h
    rw [← h]
    exact hr
  | cons it rest ih =>
    unfold Service.channel_process at h
    cases h1 : s.channel_item it with
    | some s1 =>
      rw [h1] at h
      exact ih s1 (channel_item_run_false s it s1 hr h1) h
    | none => rw [h1] at h; exact absurd h (by simp)

theorem connect_process_run (readerRes : Conn → ReaderOutcome)
    (writerRes : Conn → WriterOutcome) (s : Service) (event : Readiness)
    (token : Nat) :
    (s.connect_process readerRes writerRes event token).run = s.run := by
  unfold Service.connect_process
  by_cases hhe : (event.hup || event.err) = true
  · rw [if_pos hhe]
    simp [Service.emit, remove_connent_run]
  · rw [if_neg hhe]
    dsimp only
    by_cases hrd : event.readable = true
    · rw [if_pos hrd]
      cases hl : lookupConn s.conns token with
      | none =>
        dsimp only
        by_cases hwr : event.writable = true
        · rw [if_pos hwr]
          cases hl2 : lookupConn s.conns token with
          | none => dsimp only; simp [Service.emit, remove_connent_run]
          | some c2 => dsimp only; split <;> simp [Service.emit, remove_connent_run]
        · rw [if_neg hwr]
          dsimp only
          simp [Service.emit, remove_connent_run]
      | some c =>
        dsimp only
        by_cases hwr : event.writable = true
        · rw [if_pos hwr]
          cases hl2 : lookupConn (updateConn s.conns token (readerRes c).conn)
              token with
          | none => dsimp only; split <;> simp [Service.emit, remove_connent_run]
          | some c2 => dsimp only; split <;> simp [Service.emit, remove_connent_run]
        · rw [if_neg hwr]
          dsimp only
          split <;> simp [Service.emit, remove_connent_run]
    · rw [if_neg hrd]
      dsimp only
      by_cases hwr : event.writable = true
      · rw [if_pos hwr]
        cases hl2 : lookupConn s.conns token with
        | none => dsimp only; simp [Service.emit, remove_connent_run]
        | some c2 => dsimp only; split <;> simp [Service.emit, remove_connent_run]
      · rw [if_neg hwr]
        simp [Service.emit, remove_connent_run]

theorem accept_loop_run (s : Service) (k : Nat) :
    (s.accept_loop k).run = s.run := by
  induction k generalizing s with
  | zero => rfl
  | succ n ih => exact (ih s.accept_conn).trans rfl

theorem dispatch_run_false (s : Service) (ev : EventItem) (s' : Service)
    (hr : s.run = false) (h : s.dispatch ev = some s') : s'.run = false := by
  cases ev with
  | socketEv k =>
    unfold Service.dispatch at h
    cases hs : s.socket with
    | some name =>
      rw [hs] at h
      simp only [Option.some.injEq] at h
      rw [← h, accept_loop_run]
      exact hr
    | none =>
      rw [hs] at h
      simp only [Option.some.injEq] at h
      rw [← h]
      exact hr
  | channelEv items => exact channel_process_run_false items s s' hr h
  | connEv token event readerRes writerRes =>
    simp only [Service.dispatch, Option.some.injEq] at h
    rw [← h, connect_process_run]
    exact hr

theorem run_once_run_false (b : List EventItem) (s s' : Service)
    (hr : s.run = false) (h : s.run_once b = some s') : s'.run = false := by
  induction b generalizing s with
  | nil =>
    unfold Service.run_once at h
    simp only [Option.some.injEq] at h
    rw [← h]
    exact hr
  | cons ev rest ih =>
    unfold Service.run_once at h
    cases h1 : s.dispatch ev with
    | some s1 =>
      rw [h1] at h
      exact ih s1 (dispatch_run_false s ev s1 hr h1) h
    | none => rw [h1] at h; exact absurd h (by simp)

theorem runBatches_stopped (s : Service) (bs : List (List EventItem))
    (hr : s.run = false) : s.runBatches bs = some s := by
  cases bs with
  | nil => rfl
  | cons b rest =>
    unfold Service.runBatches
    rw [if_neg (by rw [hr]; exact Bool.false_ne_true)]

theorem channel_process_append (s : Service) (a b : List ChanItem) :
    s.channel_process (a ++ b) =
      (s.channel_process a).bind (fun s1 => s1.channel_process b) := by
  induction a generalizing s with
  | nil => rfl
  | cons it rest ih =>
    simp only [List.cons_append, Service.channel_process]
    cases h1 : s.channel_item it with
    | some s1 => exact ih s1
    | none => rfl

theorem run_once_append (s : Service) (a b : List EventItem) :
    s.run_once (a ++ b) =
      (s.run_once a).bind (fun s1 => s1.run_once b) := by
  induction a generalizing s with
  | nil => rfl
  | cons ev rest ih =>
    simp only [List.cons_append, Service.run_once]
    cases h1 : s.dispatch ev with
    | some s1 => exact ih s1
    | none => rfl

theorem channel_process_shutdown (s : Service) (pre post : List ChanItem)
    (net : NetResult) (s' : Service)
    (h : s.channel_process (pre ++ ChanItem.cmd net Command.shoutdown :: post) =
      some s') : s'.run = false := by
  rw [channel_process_append] at h
  cases h1 : s.channel_process pre with
  | none => rw [h1] at h; exact absurd h (by simp)
  | some s1 =>
    rw [h1] at h
    simp only [Option.some_bind, Service.channel_process] at h
    have h2 : s1.channel_item (ChanItem.cmd net Command.shoutdown) =
        some { s1 with run := false } := rfl
    rw [h2] at h
    exact channel_process_run_false post _ s' rfl h

theorem run_once_shutdown (s : Service) (b1 b2 : List EventItem)
    (pre post : List ChanItem) (net : NetResult) (s' : Service)
    (h : s.run_once (b1 ++ EventItem.channelEv
        (pre ++ ChanItem.cmd net Command.shoutdown :: post) :: b2) = some s') :
    s'.run = false := by
  rw [run_once_append] at h
  cases h1 : s.run_once b1 with
  | none => rw [h1] at h; exact absurd h (by simp)
  | some s1 =>
    rw [h1] at h
    simp only [Option.some_bind, Service.run_once] at h
    cases h2 : s1.dispatch (EventItem.channelEv
        (pre ++ ChanItem.cmd net Command.shoutdown :: post)) with
    | none => rw [h2] at h; exact absurd h (by simp)
    | some s2 =>
      rw [h2] at h
      simp only [Service.dispatch] at h2
      exact run_once_run_false b2 s2 s'
        (channel_process_shutdown s1 pre post net s2 h2) h

/-- C7: executing a `Shoutdown` command flips the run flag to false, and
the run loop then exits after finishing at most the current event batch:
the final state of processing the batch containing the shutdown (anywhere
among its drained control items, with arbitrary events before and after
it) has `run = false`, and the whole loop over any further poll batches
returns exactly that state, so no further poll iteration runs and no
further connection is accepted. -/
theorem shutdown_stops (s : Service) (net : NetResult) (b1 b2 : List EventItem)
    (pre post : List ChanItem) (bs : List (List EventItem)) (s' : Service)
    (hrun : s.run = true)
    (h : s.run_once (b1 ++ EventItem.channelEv
        (pre ++ ChanItem.cmd net Command.shoutdown :: post) :: b2) = some s') :
    s'.run = false ∧
      s.runBatches ((b1 ++ EventItem.channelEv
          (pre ++ ChanItem.cmd net Command.shoutdown :: post) :: b2) :: bs) =
        some s' := by
  have hfalse := run_once_shutdown s b1 b2 pre post net s' h
  refine ⟨hfalse, ?_⟩
  simp only [Service.runBatches]
  rw [if_pos hrun, h]
  exact runBatches_stopped s' bs hfalse

theorem shutdown_stops_witness :
    (⟨[], 8, none, false, [], [1], []⟩ : Service).run = false ∧
      Service.fresh.runBatches
          [[EventItem.channelEv
              [ChanItem.cmd (NetResult.fail errInUse) Command.shoutdown]],
           [EventItem.socketEv 3]] =
        some ⟨[], 8, none, false, [], [1], []⟩ := by
  have h := shutdown_stops Service.fresh (NetResult.fail errInUse) [] [] [] []
    [[EventItem.socketEv 3]] ⟨[], 8, none, false, [], [1], []⟩ rfl rfl
  simpa using h

/-- The registry/counter invariant of one `Service` instance: the counter
never falls below its initial value 8, live tokens are pairwise distinct,
every live token was allocated below the current counter (so the next
allocation is fresh), and every token ever allocated is at least 8. -/
def ServiceInv (s : Service) : Prop :=
  8 ≤ s.token_counter ∧ (s.conns.map Prod.fst).Nodup ∧
    (∀ k ∈ s.conns.map Prod.fst, 8 ≤ k ∧ k < s.token_counter) ∧
    (∀ t ∈ s.alloc, 8 ≤ t)

theorem ServiceInv_fresh : ServiceInv Service.fresh := by
  refine ⟨le_refl 8, ?_, ?_, ?_⟩ <;> simp [Service.fresh]

theorem insert_fresh_inv (s : Service) (h : ServiceInv s) :
    ServiceInv { s.next_token.2 with
            conns := insertConn s.next_token.2.conns s.next_token.1 Conn.fresh,
            pollReg := regInterest s.next_token.2.pollReg s.next_token.1 } := by
  obtain ⟨hc, hnd, hbnd, hal⟩ := h
  have hnotin : s.token_counter ∉ s.conns.map Prod.fst := by
    intro hm
    exact absurd (hbnd _ hm).2 (lt_irrefl _)
  have hlook : lookupConn s.conns s.token_counter = none :=
    lookupConn_eq_none _ _ hnotin
  unfold Service.next_token
  dsimp only
  rw [insertConn, hlook]
  simp only [Option.isSome_none, Bool.false_eq_true, if_false]
  unfold ServiceInv
  dsimp only
  refine ⟨by omega, ?_, ?_, ?_⟩
  · simp only [List.map_append, List.map_cons, List.map_nil]
    rw [List.nodup_append]
    refine ⟨hnd, List.nodup_singleton _, ?_⟩
    intro a ha hb
    simp only [List.mem_singleton] at hb
    exact absurd (hbnd a ha).2 (by omega)
  · intro k hk
    simp only [List.map_append, List.map_cons, List.map_nil,
      List.mem_append, List.mem_singleton] at hk
    rcases hk with hk | hk
    · have := hbnd k hk
      exact ⟨this.1, by omega⟩
    · subst hk
      exact ⟨hc, by omega⟩
  · intro t ht
    simp only [List.mem_append, List.mem_singleton] at ht
    rcases ht with ht | ht
    · exact hal t ht
    · subst ht
      exact hc

theorem accept_conn_inv (s : Service) (h : ServiceInv s) : ServiceInv s.accept_conn :=
  insert_fresh_inv s h

theorem accept_loop_inv (s : Service) (k : Nat) (h : ServiceInv s) :
    ServiceInv (s.accept_loop k) := by
  induction k generalizing s with
  | zero => exact h
  | succ n ih => exact ih s.accept_conn (accept_conn_inv s h)

theorem remove_connent_inv (s : Service) (t : Nat) (h : ServiceInv s) :
    ServiceInv (s.remove_connent t) := by
  obtain ⟨hc, hnd, hbnd, hal⟩ := h
  unfold Service.remove_connent
  split
  · refine ⟨hc, hnd.sublist (removeEntry_keys_sublist s.conns t), ?_, hal⟩
    intro k hk
    exact hbnd k ((removeEntry_keys_sublist s.conns t).mem hk)
  · exact ⟨hc, hnd, hbnd, hal⟩

theorem update_inv (s : Service) (t : Nat) (c : Conn)
    (tx : List ServiceMessage) (h : ServiceInv s) :
    ServiceInv { s with conns := updateConn s.conns t c, tx_out := tx } := by
  obtain ⟨hc, hnd, hbnd, hal⟩ := h
  refine ⟨hc, ?_, ?_, hal⟩
  · rw [updateConn_keys]
    exact hnd
  · intro k hk
    rw [updateConn_keys] at hk
    exact hbnd k hk

theorem emit_inv (s : Service) (m : ServiceMessage) (h : ServiceInv s) :
    ServiceInv (s.emit m) := h

theorem service_command_inv (s : Service) (net : NetResult) (cmd : Command)
    (s' : Service) (h : ServiceInv s) (hs : s.service_command net cmd = some s') :
    ServiceInv s' := by
  obtain ⟨hc, hnd, hbnd, hal⟩ := h
  cases cmd with
  | listen id addr =>
    cases net with
    | sock name =>
      simp only [Service.service_command, Option.some.injEq] at hs
      rw [← hs]
      exact ⟨hc, hnd, hbnd, hal⟩
    | fail emsg =>
      simp only [Service.service_command, Option.some.injEq] at hs
      rw [← hs]
      exact ⟨hc, hnd, hbnd, hal⟩
  | linkTo id addr =>
    cases net with
    | sock name =>
      simp only [Service.service_command, Option.some.injEq] at hs
      rw [← hs]
      exact emit_inv _ _ (insert_fresh_inv s ⟨hc, hnd, hbnd, hal⟩)
    | fail emsg =>
      simp only [Service.service_command, Option.some.injEq] at hs
      rw [← hs]
      exact ⟨hc, hnd, hbnd, hal⟩
  | shoutdown =>
    simp only [Service.service_command, Option.some.injEq] at hs
    rw [← hs]
    exact ⟨hc, hnd, hbnd, hal⟩
  | closeConn id =>
    simp only [Service.service_command, Option.some.injEq] at hs
    rw [← hs]
    exact remove_connent_inv s id ⟨hc, hnd, hbnd, hal⟩
  | listenReply id addr success msg =>
    exact absurd hs (by simp [Service.service_command])
  | linkToReply id token addr success msg =>
    exact absurd hs (by simp [Service.service_command])

theorem remove_connent_shape (s : Service) (t : Nat) :
    List.Sublist ((s.remove_connent t).conns.map Prod.fst)
        (s.conns.map Prod.fst) ∧
      (s.remove_connent t).token_counter = s.token_counter ∧
      (s.remove_connent t).alloc = s.alloc := by
  unfold Service.remove_connent
  split
  · exact ⟨removeEntry_keys_sublist s.conns t, rfl, rfl⟩
  · exact ⟨List.Sublist.refl _, rfl, rfl⟩

theorem remove_emit_shape (s : Service) (t : Nat) (msg : ServiceMessage) :
    List.Sublist (((s.remove_connent t).emit msg).conns.map Prod.fst)
        (s.conns.map Prod.fst) ∧
      ((s.remove_connent t).emit msg).token_counter = s.token_counter ∧
      ((s.remove_connent t).emit msg).alloc = s.alloc :=
  remove_connent_shape s t

theorem connect_process_shape (readerRes : Conn → ReaderOutcome)
    (writerRes : Conn → WriterOutcome) (s : Service) (event : Readiness)
    (token : Nat) :
    List.Sublist
        ((s.connect_process readerRes writerRes event token).conns.map
          Prod.fst) (s.conns.map Prod.fst) ∧
      (s.connect_process readerRes writerRes event token).token_counter =
        s.token_counter ∧
      (s.connect_process readerRes writerRes event token).alloc = s.alloc := by
  unfold Service.connect_process
  by_cases hhe : (event.hup || event.err) = true
  · rw [if_pos hhe]
    exact remove_emit_shape s token _
  · rw [if_neg hhe]
    dsimp only
    by_cases hrd : event.readable = true
    · rw [if_pos hrd]
      cases hl : lookupConn s.conns token with
      | none =>
        dsimp only
        by_cases hwr : event.writable = true
        · rw [if_pos hwr]
          cases hl2 : lookupConn s.conns token with
          | none =>
            dsimp only
            exact ⟨List.Sublist.refl _, rfl, rfl⟩
          | some c2 =>
            dsimp only
            split
            · refine ⟨((remove_emit_shape _ _ _).1).trans ?_,
                (remove_emit_shape _ _ _).2.1, (remove_emit_shape _ _ _).2.2⟩
              simp only [updateConn_keys]
              exact List.Sublist.refl _
            · refine ⟨?_, rfl, rfl⟩
              simp only [updateConn_keys]
              exact List.Sublist.refl _
        · rw [if_neg hwr]
          dsimp only
          exact ⟨List.Sublist.refl _, rfl, rfl⟩
      | some c =>
        dsimp only
        by_cases hwr : event.writable = true
        · rw [if_pos hwr]
          cases hl2 : lookupConn (updateConn s.conns token (readerRes c).conn)
              token with
          | none =>
            dsimp only
            split
            · refine ⟨((remove_emit_shape _ _ _).1).trans ?_,
                (remove_emit_shape _ _ _).2.1, (remove_emit_shape _ _ _).2.2⟩
              simp only [updateConn_keys]
              exact List.Sublist.refl _
            · refine ⟨?_, rfl, rfl⟩
              simp only [updateConn_keys]
              exact List.Sublist.refl _
          | some c2 =>
            dsimp only
            split
            · refine ⟨((remove_emit_shape _ _ _).1).trans ?_,
                (remove_emit_shape _ _ _).2.1, (remove_emit_shape _ _ _).2.2⟩
              simp only [updateConn_keys]
              exact List.Sublist.refl _
            · refine ⟨?_, rfl, rfl⟩
              simp only [updateConn_keys]
              exact List.Sublist.refl _
        · rw [if_neg hwr]
          dsimp only
          split
          · refine ⟨((remove_emit_shape _ _ _).1).trans ?_,
              (remove_emit_shape _ _ _).2.1, (remove_emit_shape _ _ _).2.2⟩
            simp only [updateConn_keys]
            exact List.Sublist.refl _
          · refine ⟨?_, rfl, rfl⟩
            simp only [updateConn_keys]
            exact List.Sublist.refl _
    · rw [if_neg hrd]
      dsimp only
      by_cases hwr : event.writable = true
      · rw [if_pos hwr]
        cases hl2 : lookupConn s.conns token with
        | none =>
          dsimp only
          exact ⟨List.Sublist.refl _, rfl, rfl⟩
        | some c2 =>
          dsimp only
          split
          · refine ⟨((remove_emit_shape _ _ _).1).trans ?_,
              (remove_emit_shape _ _ _).2.1, (remove_emit_shape _ _ _).2.2⟩
            simp only [updateConn_keys]
            exact List.Sublist.refl _
          · refine ⟨?_, rfl, rfl⟩
            simp only [updateConn_keys]
            exact List.Sublist.refl _
      · rw [if_neg hwr]
        dsimp only
        exact ⟨List.Sublist.refl _, rfl, rfl⟩

theorem connect_process_inv (readerRes : Conn → ReaderOutcome)
    (writerRes : Conn → WriterOutcome) (s : Service) (event : Readiness)
    (token : Nat) (h : ServiceInv s) :
    ServiceInv (s.connect_process readerRes writerRes event token) := by
  obtain ⟨hc, hnd, hbnd, hal⟩ := h
  obtain ⟨hsub, hcnt, hall⟩ := connect_process_shape readerRes writerRes s event token
  refine ⟨?_, hnd.sublist hsub, ?_, ?_⟩
  · rw [hcnt]; exact hc
  · intro k hk
    rw [hcnt]
    exact hbnd k (hsub.mem hk)
  · rw [hall]
    exact hal

theorem channel_item_inv (s : Service) (it : ChanItem) (s' : Service)
    (h : ServiceInv s) (hs : s.channel_item it = some s') : ServiceInv s' := by
  cases it with
  | msg id m =>
    simp only [Service.channel_item] at hs
    cases hl : lookupConn s.conns id with
    | some c =>
      rw [hl] at hs
      simp only [Option.some.injEq] at hs
      rw [← hs]
      exact update_inv s id (c.recv_message m) s.tx_out h
    | none =>
      rw [hl] at hs
      simp only [Option.some.injEq] at hs
      rw [← hs]
      exact h
  | cmd net c => exact service_command_inv s net c s' h hs

theorem channel_process_inv (items : List ChanItem) (s s' : Service)
    (h : ServiceInv s) (hs : s.channel_process items = some s') :
    ServiceInv s' := by
  induction items generalizing s with
  | nil =>
    unfold Service.channel_process at hs
    simp only [Option.some.injEq] at hs
    rw [← hs]
    exact h
  | cons it rest ih =>
    unfold Service.channel_process at hs
    cases h1 : s.channel_item it with
    | some s1 =>
      rw [h1] at hs
      exact ih s1 (channel_item_inv s it s1 h h1) hs
    | none => rw [h1] at hs; exact absurd hs (by simp)

theorem dispatch_inv (s : Service) (ev : EventItem) (s' : Service)
    (h : ServiceInv s) (hs : s.dispatch ev = some s') : ServiceInv s' := by
  cases ev with
  | socketEv k =>
    unfold Service.dispatch at hs
    cases hsk : s.socket with
    | some name =>
      rw [hsk] at hs
      simp only [Option.some.injEq] at hs
      rw [← hs]
      exact accept_loop_inv s k h
    | none =>
      rw [hsk] at hs
      simp only [Option.some.injEq] at hs
      rw [← hs]
      exact h
  | channelEv items => exact channel_process_inv items s s' h hs
  | connEv token event readerRes writerRes =>
    simp only [Service.dispatch, Option.some.injEq] at hs
    rw [← hs]
    exact connect_process_inv readerRes writerRes s event token h
  
theorem run_once_inv (b : List EventItem) (s s' : Service)
    (h : ServiceInv s) (hs : s.run_once b = some s') : ServiceInv s' := by
  induction b generalizing s with
  | nil =>
    unfold Service.run_once at hs
    simp only [Option.some.injEq] at hs
    rw [← hs]
    exact h
  | cons ev rest ih =>
    unfold Service.run_once at hs
    cases h1 : s.dispatch ev with
    | some s1 =>
      rw [h1] at hs
      exact ih s1 (dispatch_inv s ev s1 h h1) hs
    | none => rw [h1] at hs; exact absurd hs (by simp)

theorem runBatches_inv (bs : List (List EventItem)) (s s' : Service)
    (h : ServiceInv s) (hs : s.runBatches bs = some s') : ServiceInv s' := by
  induction bs generalizing s with
  | nil =>
    unfold Service.runBatches at hs
    simp only [Option.some.injEq] at hs
    rw [← hs]
    exact h
  | cons b rest ih =>
    unfold Service.runBatches at hs
    by_cases hr : s.run = true
    · rw [if_pos hr] at hs
      cases h1 : s.run_once b with
      | some s1 =>
        rw [h1] at hs
        exact ih s1 (run_once_inv b s s1 h h1) hs
      | none => rw [h1] at hs; exact absurd hs (by simp)
    · rw [if_neg hr] at hs
      simp only [Option.some.injEq] at hs
      rw [← hs]
      exact h

/-- C6: in every state a `Service` instance can reach from construction
(any sequence of poll batches, with arbitrary environment outcomes), no
two simultaneously live connections in the registry hold the same token,
every live token and indeed every token ever handed out by `next_token`
is strictly greater than the reserved values 0 (listening socket) and 1
(control channel), and every live token lies below the monotonic counter
(so the next allocation can never collide with a live connection). -/
theorem token_uniqueness (bs : List (List EventItem)) (s' : Service)
    (h : Service.fresh.runBatches bs = some s') :
    (s'.conns.map Prod.fst).Nodup ∧
      (∀ k ∈ s'.conns.map Prod.fst, 1 < k ∧ k < s'.token_counter) ∧
      (∀ t ∈ s'.alloc, 1 < t) := by
  obtain ⟨hc, hnd, hbnd, hal⟩ := runBatches_inv bs Service.fresh s' ServiceInv_fresh h
  refine ⟨hnd, ?_, ?_⟩
  · intro k hk
    obtain ⟨h8, hlt⟩ := hbnd k hk
    exact ⟨by omega, hlt⟩
  · intro t ht
    have := hal t ht
    omega

theorem token_uniqueness_witness :
    ((⟨[(8, Conn.fresh), (9, Conn.fresh)], 10, some addrDemo, true,
        [ServiceMessage.command (Command.listenReply 1 addrDemo true emptyStr)],
        [1, 0, 8, 9], [8, 9]⟩ : Service).conns.map Prod.fst).Nodup ∧
      (∀ k ∈ ((⟨[(8, Conn.fresh), (9, Conn.fresh)], 10, some addrDemo, true,
          [ServiceMessage.command (Command.listenReply 1 addrDemo true emptyStr)],
          [1, 0, 8, 9], [8, 9]⟩ : Service).conns.map Prod.fst),
        1 < k ∧ k < 10) ∧
      (∀ t ∈ [8, 9], 1 < t) := by
  have h := token_uniqueness
    [[EventItem.channelEv [ChanItem.cmd (NetResult.sock addrDemo)
        (Command.listen 1 addrDemo)]], [EventItem.socketEv 2]]
    ⟨[(8, Conn.fresh), (9, Conn.fresh)], 10, some addrDemo, true,
      [ServiceMessage.command (Command.listenReply 1 addrDemo true emptyStr)],
      [1, 0, 8, 9], [8, 9]⟩ rfl
  exact h

/-- Modelled from the spec: frame extraction from the per-connection read
buffer (`src/service/connection.rs` is not among the provided sources).
Spec §4.2: after each read, extract as many complete frames as the buffer
contains; a frame is complete when the buffer holds at least the 4 length
prefix bytes and at least the declared total number of bytes, which is
exactly what one `Message::read` then consumes (§3).  Extraction stops on
an incomplete frame (partial data stays buffered) or on a decode failure
(connection teardown, outside this loop).  `fuel` only bounds the
recursion; `buf.length` is always enough since a frame has at least 14
bytes. -/
def extractFrames : Nat → List Nat → List Message × List Nat
  | 0, buf => ([], buf)
  | fuel + 1, buf =>
    match readU32 buf with
    | none => ([], buf)
    | some (n, _) =>
      if 4 ≤ n ∧ n ≤ buf.length then
        match Message.read (buf.take n) with
        | .ok m _ =>
          let r := extractFrames fuel (buf.drop n)
          (m :: r.1, r.2)
        | _ => ([], buf)
      else ([], buf)

/-- Modelled from the spec: one reader pass — append the newly received
chunk to the buffered partial data, then drain every complete frame,
keeping the messages extracted so far and the new leftover. -/
def feed (st : List Message × List Nat) (chunk : List Nat) :
    List Message × List Nat :=
  let buf := st.2 ++ chunk
  let r := extractFrames buf.length buf
  (st.1 ++ r.1, r.2)

/-- Feeding a sequence of chunks to a fresh connection's reader. -/
def feedAll (chunks : List (List Nat)) : List Message × List Nat :=
  chunks.foldl feed ([], [])

/-- The concatenated encoding of consecutive frames. -/
def encodeAll (ms : List Message) : List Nat :=
  (ms.map Message.write).flatten

/-- Well-formedness of a message as a wire frame: the machine-integer
bounds of its fields, NUL-free strings, and an encoded size below 2 ^ 32
(a frame whose size cannot be represented by its own length prefix is not
an encoded frame). -/
def FrameWf (m : Message) : Prop :=
  m.message_id < 4294967296 ∧ m.opcode < 65536 ∧ m.opcode &&& 0x78c0 = 0 ∧
    m.content_type < 65536 ∧ (∀ b ∈ m.target, b ≠ 0) ∧
    (∀ b ∈ m.origin, b ≠ 0) ∧ m.len < 4294967296

/-- The frames of `ms` that fit completely within the first `L` bytes of
its encoded stream. -/
def consumed : List Message → Nat → List Message
  | [], _ => []
  | m :: rest, L => if m.len ≤ L then m :: consumed rest (L - m.len) else []

/-- Total encoded size of a list of frames. -/
def sumLen (ms : List Message) : Nat := (ms.map Message.len).sum

theorem Message.len_ge (m : Message) : 14 ≤ m.len := by
  rw [Message.len_eq]
  omega

theorem read_write_wf (m : Message) (extra : List Nat) (h : FrameWf m) :
    Message.read (Message.write m ++ extra) = ReadResult.ok m extra := by
  obtain ⟨hid, hop, hopbits, hct, htgt, horg, hlen⟩ := h
  rw [Message.read_write m extra hid hop hct htgt horg hlen, OpCode.from_bits,
    if_pos (by rw [show (0xffff ^^^ OpCode.all) = 0x78c0 from by decide]; exact hopbits)]
  rfl

theorem encodeAll_length (ms : List Message) :
    (encodeAll ms).length = sumLen ms := by
  induction ms with
  | nil => rfl
  | cons m rest ih =>
    simp only [encodeAll, sumLen, List.map_cons, List.flatten_cons,
      List.length_append, List.sum_cons] at ih ⊢
    rw [Message.write_length, ih]

theorem encodeAll_take_drop (ms : List Message) (t : Nat) :
    encodeAll ms = encodeAll (ms.take t) ++ encodeAll (ms.drop t) := by
  rw [encodeAll, encodeAll, encodeAll, ← List.flatten_append, ← List.map_append,
    List.take_append_drop]

theorem readU32_short (l : List Nat) (h : l.length < 4) : readU32 l = none := by
  match l with
  | [] => rfl
  | [a] => rfl
  | [a, b] => rfl
  | [a, b, c] => rfl
  | a :: b :: c :: d :: r => exact absurd h (by simp)

theorem consumed_zero (ms : List Message) : consumed ms 0 = [] := by
  cases ms with
  | nil => rfl
  | cons m rest =>
    rw [consumed, if_neg]
    intro hle
    have := m.len_ge
    omega

theorem consumed_sumLen_le (ms : List Message) (L : Nat) :
    sumLen (consumed ms L) ≤ L := by
  induction ms generalizing L with
  | nil => simp [consumed, sumLen]
  | cons m rest ih =>
    rw [consumed]
    split
    · have := ih (L - m.len)
      simp only [sumLen, List.map_cons, List.sum_cons] at this ⊢
      omega
    · simp [sumLen]

theorem consumed_take (ms : List Message) (L : Nat) :
    consumed ms L = ms.take (consumed ms L).length := by
  induction ms generalizing L with
  | nil => simp [consumed]
  | cons m rest ih =>
    rw [consumed]
    split
    · simp only [List.length_cons, List.take_succ_cons, List.cons.injEq,
        true_and]
      exact ih (L - m.len)
    · simp

theorem consumed_drop_nil (ms : List Message) (L : Nat) :
    consumed (ms.drop (consumed ms L).length)
      (L - sumLen (consumed ms L)) = [] := by
  induction ms generalizing L with
  | nil => simp [consumed]
  | cons m rest ih =>
    rw [consumed]
    split
    · simp only [List.length_cons, List.drop_succ_cons]
      have heq : L - sumLen (m :: consumed rest (L - m.len)) =
          (L - m.len) - sumLen (consumed rest (L - m.len)) := by
        simp only [sumLen, List.map_cons, List.sum_cons]
        omega
      rw [heq]
      exact ih (L - m.len)
    · simp only [List.length_nil, List.drop_zero, sumLen, List.map_nil,
        List.sum_nil, Nat.sub_zero]
      rw [consumed]
      split
      · rename_i hle hle2
        exact absurd hle2 hle
      · rfl

example :
    feedAll [Message.write ⟨1, [104], [105], 257, 2, [9, 8]⟩] =
      ([⟨1, [104], [105], 257, 2, [9, 8]⟩], []) := by decide
example :
    feedAll [[19, 0], [0, 0, 1, 0, 0, 0, 104, 0], [105, 0, 1, 1, 2, 0, 9],
        [8, 7]] =
      ([⟨1, [104], [105], 257, 2, [9, 8, 7]⟩], []) := by decide

theorem sumLen_cons (m : Message) (rest : List Message) :
    sumLen (m :: rest) = m.len + sumLen rest := by
  simp [sumLen]

theorem readU32_append_take (a b : List Nat) (k : Nat) (ha : a.length = 4)
    (h4 : 4 ≤ k) :
    readU32 ((a ++ b).take k) = readU32 (a ++ b.take (k - 4)) := by
  match a, ha with
  | [x, y, z, w], _ =>
    obtain ⟨k', rfl⟩ : ∃ k', k = k' + 4 := ⟨k - 4, by omega⟩
    simp only [List.cons_append, List.nil_append, List.take_succ_cons,
      Nat.add_sub_cancel, readU32]

/-- Running the extraction loop on any prefix `q` of the encoded stream of
well-formed frames yields exactly the frames completely contained in `q`,
leaving the trailing partial frame in the buffer. -/
theorem extractFrames_spec (ms : List Message) (hwf : ∀ m ∈ ms, FrameWf m)
    (fuel : Nat) (q : List Nat) (hq : q <+: encodeAll ms)
    (hfuel : q.length ≤ fuel) :
    extractFrames fuel q =
      (consumed ms q.length, q.drop (sumLen (consumed ms q.length))) := by
  induction ms generalizing fuel q with
  | nil =>
    have hqnil : q = [] := List.prefix_nil.mp (by simpa [encodeAll] using hq)
    subst hqnil
    cases fuel with
    | zero => simp [extractFrames, consumed, sumLen]
    | succ f => simp [extractFrames, readU32, consumed, sumLen]
  | cons m rest ih =>
    have hwfm : FrameWf m := hwf m (by simp)
    have hlen14 : 14 ≤ m.len := m.len_ge
    have hlenM : m.len < 4294967296 := hwfm.2.2.2.2.2.2
    have hWlen : (Message.write m).length = m.len := Message.write_length m
    have henc : encodeAll (m :: rest) = Message.write m ++ encodeAll rest := by
      simp [encodeAll]
    rw [henc] at hq
    by_cases hlong : m.len ≤ q.length
    · have hWpre : Message.write m <+: q :=
        List.prefix_of_prefix_length_le (List.prefix_append _ _) hq
          (by rw [hWlen]; exact hlong)
      obtain ⟨q', rfl⟩ := hWpre
      have hq' : q' <+: encodeAll rest := (List.prefix_append_right_inj _).mp hq
      have hqlen : (Message.write m ++ q').length = m.len + q'.length := by
        simp [hWlen]
      cases fuel with
      | zero =>
        exfalso
        rw [hqlen] at hfuel
        omega
      | succ f =>
        have h32 : readU32 (Message.write m ++ q') =
            some (m.len, u32le m.message_id ++ (write_cstring m.target ++
              (write_cstring m.origin ++ (u16le m.opcode ++
                (u16le m.content_type ++ (m.body ++ q')))))) := by
          conv_lhs => rw [Message.write, u32le_mod]
          simp only [List.append_assoc]
          exact readU32_u32le _ _ hlenM
        have hrw : Message.read ((Message.write m ++ q').take m.len) =
            ReadResult.ok m [] := by
          rw [← hWlen, List.take_left]
          have := read_write_wf m [] hwfm
          rwa [List.append_nil] at this
        have hdropW : (Message.write m ++ q').drop m.len = q' := by
          rw [← hWlen, List.drop_left]
        simp only [extractFrames, h32]
        rw [if_pos ⟨by omega, by rw [hqlen]; omega⟩, hrw]
        dsimp only
        have hfuel' : q'.length ≤ f := by
          rw [hqlen] at hfuel
          omega
        rw [hdropW, ih (fun x hx => hwf x (by simp [hx])) f q' hq' hfuel']
        have hcons : consumed (m :: rest) (Message.write m ++ q').length =
            m :: consumed rest q'.length := by
          rw [consumed, if_pos (by rw [hqlen]; omega)]
          congr 1
          rw [hqlen]
          congr 1
          omega
        rw [hcons, sumLen_cons, ← hWlen, List.drop_append]
    · have hcons : consumed (m :: rest) q.length = [] := by
        rw [consumed, if_neg hlong]
      rw [hcons]
      simp only [sumLen, List.map_nil, List.sum_nil, List.drop_zero]
      by_cases hq4 : q.length < 4
      · cases fuel with
        | zero => rfl
        | succ f => simp [extractFrames, readU32_short q hq4]
      · have hqW : q = (Message.write m).take q.length := by
          have h1 := List.prefix_iff_eq_take.mp hq
          rw [List.take_append_of_le_length (by rw [hWlen]; omega)] at h1
          exact h1
        have hq32 : readU32 q = some (m.len,
            (u32le m.message_id ++ (write_cstring m.target ++
              (write_cstring m.origin ++ (u16le m.opcode ++
                (u16le m.content_type ++ m.body))))).take (q.length - 4)) := by
          conv_lhs => rw [hqW, Message.write, u32le_mod]
          simp only [List.append_assoc]
          rw [readU32_append_take (u32le m.len) _ q.length rfl (by omega)]
          exact readU32_u32le _ _ hlenM
        cases fuel with
        | zero => rfl
        | succ f =>
          simp only [extractFrames, hq32]
          rw [if_neg (by rintro ⟨h1, h2⟩; omega)]

/-- Feeding any chunking of the remaining stream to a reader whose buffer
holds no complete frame reassembles exactly the remaining frames. -/
theorem feed_chunks (chunks : List (List Nat)) (acc : List Message)
    (ms : List Message) (buf : List Nat)
    (hwf : ∀ m ∈ ms, FrameWf m)
    (hleft : consumed ms buf.length = [])
    (hstream : buf ++ chunks.flatten = encodeAll ms) :
    chunks.foldl feed (acc, buf) = (acc ++ ms, []) := by
  induction chunks generalizing acc ms buf with
  | nil =>
    simp only [List.flatten_nil, List.append_nil] at hstream
    cases ms with
    | nil =>
      have hbuf : buf = [] := by simpa [encodeAll] using hstream
      subst hbuf
      simp
    | cons m rest =>
      exfalso
      rw [consumed] at hleft
      split at hleft
      · exact absurd hleft (by simp)
      · rename_i hgt
        apply hgt
        rw [hstream, encodeAll_length, sumLen_cons]
        omega
  | cons c cs ih =>
    simp only [List.foldl_cons]
    have hstream' : (buf ++ c) ++ cs.flatten = encodeAll ms := by
      rw [List.flatten_cons] at hstream
      rw [List.append_assoc]
      exact hstream
    have hq : (buf ++ c) <+: encodeAll ms := ⟨cs.flatten, hstream'⟩
    have hfeed : feed (acc, buf) c =
        (acc ++ consumed ms (buf ++ c).length,
          (buf ++ c).drop (sumLen (consumed ms (buf ++ c).length))) := by
      unfold feed
      dsimp only
      rw [extractFrames_spec ms hwf (buf ++ c).length (buf ++ c) hq
        (le_refl _)]
    rw [hfeed]
    have htake := consumed_take ms (buf ++ c).length
    have hsle := consumed_sumLen_le ms (buf ++ c).length
    have hE1len :
        (encodeAll (ms.take (consumed ms (buf ++ c).length).length)).length =
          sumLen (consumed ms (buf ++ c).length) := by
      rw [encodeAll_length, ← htake]
    have hptk : ∀ k, k ≤ (buf ++ c).length →
        (buf ++ c).take k = (encodeAll ms).take k := by
      intro k hk
      conv_lhs => rw [List.prefix_iff_eq_take.mp hq]
      rw [List.take_take, inf_eq_left.mpr hk]
    have hpt : (buf ++ c).take (sumLen (consumed ms (buf ++ c).length)) =
        encodeAll (ms.take (consumed ms (buf ++ c).length).length) := by
      rw [hptk _ hsle,
        encodeAll_take_drop ms (consumed ms (buf ++ c).length).length,
        ← hE1len, List.take_left]
    have hsplit : (buf ++ c) =
        encodeAll (ms.take (consumed ms (buf ++ c).length).length) ++
          (buf ++ c).drop (sumLen (consumed ms (buf ++ c).length)) := by
      conv_lhs => rw [← List.take_append_drop
        (sumLen (consumed ms (buf ++ c).length)) (buf ++ c)]
      rw [hpt]
    have hstream2 :
        (buf ++ c).drop (sumLen (consumed ms (buf ++ c).length)) ++
            cs.flatten =
          encodeAll (ms.drop (consumed ms (buf ++ c).length).length) := by
      have h2 : encodeAll (ms.take (consumed ms (buf ++ c).length).length) ++
          ((buf ++ c).drop (sumLen (consumed ms (buf ++ c).length)) ++
            cs.flatten) =
          encodeAll (ms.take (consumed ms (buf ++ c).length).length) ++
            encodeAll (ms.drop (consumed ms (buf ++ c).length).length) := by
        rw [← List.append_assoc, ← hsplit, hstream',
          ← encodeAll_take_drop ms (consumed ms (buf ++ c).length).length]
      exact List.append_cancel_left h2
    rw [ih (acc ++ consumed ms (buf ++ c).length)
      (ms.drop (consumed ms (buf ++ c).length).length)
      ((buf ++ c).drop (sumLen (consumed ms (buf ++ c).length)))
      (fun m hm => hwf m (List.mem_of_mem_drop hm))
      (by rw [List.length_drop]; exact consumed_drop_nil ms (buf ++ c).length)
      hstream2]
    have hfinal : consumed ms (buf ++ c).length ++
        ms.drop (consumed ms (buf ++ c).length).length = ms := by
      nth_rewrite 1 [htake]
      exact List.take_append_drop _ ms
    rw [List.append_assoc, hfinal]

/-- C9: for every sequence of one or more consecutive encoded frames,
feeding the concatenated bytes to the connection reader split at arbitrary
chunk boundaries yields the identical sequence of decoded messages, in
order, as a single-shot read — both equal the frame sequence with an
empty leftover buffer (partial frame data persists in the read buffer
between reader calls). -/
theorem incremental_reassembly (ms : List Message) (chunks : List (List Nat))
    (hwf : ∀ m ∈ ms, FrameWf m) (_hne : ms ≠ [])
    (hchunks : chunks.flatten = encodeAll ms) :
    feedAll chunks = (ms, []) ∧ feedAll [encodeAll ms] = (ms, []) := by
  have hzero : consumed ms (List.length ([] : List Nat)) = [] := by
    simpa using consumed_zero ms
  constructor
  · have h := feed_chunks chunks [] ms [] hwf hzero (by simpa using hchunks)
    simpa [feedAll] using h
  · have h := feed_chunks [encodeAll ms] [] ms [] hwf hzero (by simp)
    simpa [feedAll] using h

theorem incremental_reassembly_witness :
    feedAll [(encodeAll [⟨1, [104], [105], 257, 2, [9, 8]⟩,
          ⟨2, [], [], 513, 0, [1]⟩]).take 5,
        (encodeAll [⟨1, [104], [105], 257, 2, [9, 8]⟩,
          ⟨2, [], [], 513, 0, [1]⟩]).drop 5] =
        ([⟨1, [104], [105], 257, 2, [9, 8]⟩, ⟨2, [], [], 513, 0, [1]⟩], []) ∧
      feedAll [encodeAll [⟨1, [104], [105], 257, 2, [9, 8]⟩,
          ⟨2, [], [], 513, 0, [1]⟩]] =
        ([⟨1, [104], [105], 257, 2, [9, 8]⟩, ⟨2, [], [], 513, 0, [1]⟩], []) :=
  incremental_reassembly
    [⟨1, [104], [105], 257, 2, [9, 8]⟩, ⟨2, [], [], 513, 0, [1]⟩]
    [(encodeAll [⟨1, [104], [105], 257, 2, [9, 8]⟩,
        ⟨2, [], [], 513, 0, [1]⟩]).take 5,
      (encodeAll [⟨1, [104], [105], 257, 2, [9, 8]⟩,
        ⟨2, [], [], 513, 0, [1]⟩]).drop 5]
    (by
      intro m hm
      rcases List.mem_cons.mp hm with rfl | hm2
      · unfold FrameWf
        decide
      · rcases List.mem_cons.mp hm2 with rfl | hm3
        · unfold FrameWf
          decide
        · exact absurd hm3 (List.not_mem_nil m))
    (by decide) (by simp)
